import Mathlib

/-!
Verification development for the document-text extraction component of
TestCaseStudio (`src/backend/src/services/jiraService.ts`).

The JavaScript functions `adfToPlain`, `extractTextFromNode`,
`decodeHtmlEntities`, `htmlToPlain`, `extractSectionByHeading` and the
description/acceptance-criteria resolution inside `getStory` are embedded
as executable Lean definitions over a JSON-like value type (`JsVal`) and
over `List Char` for string processing.  JavaScript strings are modelled
by Lean `String`; regular-expression replacement passes are modelled by
deterministic scanners that reproduce the leftmost, non-overlapping
global-replace semantics of each concrete pattern appearing in the source.
-/

/-! ## JavaScript character and string primitives -/

/-- ASCII lower-casing, the case folding relevant to the `/i` regex flag
for the ASCII-only patterns appearing in the source (non-ASCII characters
never case-fold onto ASCII ones under a non-unicode JS regex). -/
def lowerAscii (c : Char) : Char :=
  if 'A' ≤ c ∧ c ≤ 'Z' then Char.ofNat (c.toNat + 32) else c

/-- The JavaScript whitespace class: the characters matched by `\s` in a
regex and removed by `String.prototype.trim`. -/
def jsWs (c : Char) : Bool :=
  let n := c.toNat
  n == 9 || n == 10 || n == 11 || n == 12 || n == 13 || n == 32 ||
  n == 160 || n == 5760 || (decide (8192 ≤ n) && decide (n ≤ 8202)) ||
  n == 8232 || n == 8233 || n == 8239 || n == 8287 || n == 12288 || n == 65279

/-- Space or horizontal tab (the class `[ \t]`). -/
def isSpTab (c : Char) : Bool := c == ' ' || c == '\t'

/-- JavaScript `String.prototype.trim` on a character list: drop a
maximal leading and a maximal trailing run of whitespace. -/
def jsTrimL (l : List Char) : List Char :=
  List.rdropWhile jsWs (l.dropWhile jsWs)

/-- JavaScript `String.prototype.trim`. -/
def jsTrim (s : String) : String := ⟨jsTrimL s.data⟩

/-- Does `l` start with the pattern `p` (exact characters)? -/
def startsWithL : List Char → List Char → Bool
  | _, [] => true
  | [], _ :: _ => false
  | c :: cs, p :: ps => c == p && startsWithL cs ps

/-- Does the contiguous pattern `p` occur anywhere in `l`? -/
def containsSub : List Char → List Char → Bool
  | [], p => p.isEmpty
  | c :: cs, p => startsWithL (c :: cs) p || containsSub cs p

/-- Case-insensitive (ASCII) literal matcher: if `l` starts with the
pattern `p` (given in lower case), return the remainder. -/
def dropLitCi : List Char → List Char → Option (List Char)
  | [], l => some l
  | _ :: _, [] => none
  | p :: ps, c :: cs => if lowerAscii c = p then dropLitCi ps cs else none

/-- Case-sensitive literal matcher: if `l` starts with `p`, return
the remainder. -/
def dropLitCs : List Char → List Char → Option (List Char)
  | [], l => some l
  | _ :: _, [] => none
  | p :: ps, c :: cs => if c = p then dropLitCs ps cs else none

/-! ## A JSON-like value type for JavaScript data

`JsVal` models the JavaScript values flowing through the extraction
functions (the parsed Jira payload, ADF nodes, field maps).  Arrays and
objects are part of the same mutual inductive family so that structural
recursion over documents is available. -/

mutual
inductive JsVal where
  | nul
  | bool (b : Bool)
  | num (n : Int)
  | str (s : String)
  | arr (elems : JsArr)
  | obj (fields : JsObj)
inductive JsArr where
  | nil
  | cons (hd : JsVal) (tl : JsArr)
inductive JsObj where
  | nil
  | cons (key : String) (val : JsVal) (tl : JsObj)
end

/-- Convert a model array to a Lean list. -/
def JsArr.toList : JsArr → List JsVal
  | .nil => []
  | .cons x xs => x :: xs.toList

/-- Build a model array from a Lean list. -/
def JsArr.ofList : List JsVal → JsArr
  | [] => .nil
  | x :: xs => .cons x (JsArr.ofList xs)

/-- Build a model object from a Lean association list. -/
def JsObj.ofList : List (String × JsVal) → JsObj
  | [] => .nil
  | (k, v) :: fs => .cons k v (JsObj.ofList fs)

/-- Array literal helper. -/
def jarr (l : List JsVal) : JsVal := .arr (JsArr.ofList l)

/-- Object literal helper. -/
def jobj (l : List (String × JsVal)) : JsVal := .obj (JsObj.ofList l)

/-- First-match lookup of an object key. -/
def lookupField : JsObj → String → Option JsVal
  | .nil, _ => none
  | .cons k v rest, key => if k = key then some v else lookupField rest key

/-- Property access `j.k`: `some` when `j` is an object carrying key `k`,
`none` (JavaScript `undefined`) otherwise. -/
def fieldOf : JsVal → String → Option JsVal
  | .obj fs, k => lookupField fs k
  | _, _ => none

/-- JavaScript falsiness of a value (`!v`).  `NaN` has no model here;
numbers are integers. -/
def jsFalsy : JsVal → Bool
  | .nul => true
  | .bool b => !b
  | .num n => n == 0
  | .str s => s == ""
  | .arr _ => false
  | .obj _ => false

/-- JavaScript `typeof v === 'object'` (true for `null`, arrays and
objects). -/
def jsTypeofObject : JsVal → Bool
  | .nul => true
  | .arr _ => true
  | .obj _ => true
  | _ => false

/-- The test `node.type === 'text'` and friends: strict equality of the
`type` property against a string literal. -/
def typeIs (j : JsVal) (t : String) : Bool :=
  match fieldOf j "type" with
  | some (.str s) => s == t
  | _ => false

/-- `node.text || ''` under the documented shape in which a `text`
property, when present, holds a string. -/
def textField (j : JsVal) : String :=
  match fieldOf j "text" with
  | some (.str s) => s
  | _ => ""

/-- `node.content || []` under the documented shape in which a `content`
property, when present, holds an array. -/
def contentArr (j : JsVal) : List JsVal :=
  match fieldOf j "content" with
  | some (.arr xs) => xs.toList
  | _ => []

mutual
/-- Structural size of a value, used as recursion fuel for the node
renderer. -/
def jsSize : JsVal → Nat
  | .nul => 1
  | .bool _ => 1
  | .num _ => 1
  | .str _ => 1
  | .arr xs => 1 + jsSizeA xs
  | .obj fs => 1 + jsSizeO fs
def jsSizeA : JsArr → Nat
  | .nil => 0
  | .cons x xs => 1 + jsSize x + jsSizeA xs
def jsSizeO : JsObj → Nat
  | .nil => 0
  | .cons _ v fs => 1 + jsSize v + jsSizeO fs
end

/-! ## `extractTextFromNode` (jiraService.ts lines 113-149)

The JavaScript function recurses through `content` arrays; here the
recursion is driven by a structural fuel initialised with `jsSize`, which
strictly bounds the size of every child node. -/

/-- One unfolding of the body of `extractTextFromNode`, with `r` standing
for the recursive calls on child nodes. -/
def extractBody (r : JsVal → String) (j : JsVal) : String :=
  if jsFalsy j then "" else
  if typeIs j "text" then textField j else
  if typeIs j "paragraph" then
    String.join ((contentArr j).map r) else
  if typeIs j "bulletList" || typeIs j "orderedList" then
    String.intercalate "\n" ((contentArr j).map r) else
  if typeIs j "listItem" then
    let t := jsTrim (String.intercalate " " ((contentArr j).map r))
    if t = "" then "" else "- " ++ t
  else
    match fieldOf j "content" with
    | some (.arr _) => String.intercalate "\n" ((contentArr j).map r)
    | _ => ""

def extractGo : Nat → JsVal → String
  | 0, _ => ""
  | f + 1, j => extractBody (extractGo f) j

/-- Embedding of `extractTextFromNode`: recursively extracts text from an
ADF node. -/
def extractTextFromNode (j : JsVal) : String := extractGo (jsSize j) j

/-! ## `adfToPlain` (jiraService.ts lines 79-110) -/

/-- The boundary regex `/^acceptance\s*criteria\s*:?\s*$/i`, matched
against an (already trimmed) rendered node text. -/
def isACBoundary (s : String) : Bool :=
  match dropLitCi "acceptance".data s.data with
  | none => false
  | some r1 =>
    match dropLitCi "criteria".data (r1.dropWhile jsWs) with
    | none => false
    | some r2 =>
      let r3 := r2.dropWhile jsWs
      let r4 := match r3 with
        | ':' :: r => r
        | r => r
      (r4.dropWhile jsWs).isEmpty

/-- The scanning loop of `adfToPlain`: walks the top-level nodes carrying
the `foundACHeading` flag and the two accumulators. -/
def adfLoop : List JsVal → Bool → List String → List String →
    List String × List String
  | [], _, before, ac => (before, ac)
  | n :: rest, found, before, ac =>
    let text := jsTrim (extractTextFromNode n)
    if !found && isACBoundary text then
      adfLoop rest true before ac
    else if found then
      adfLoop rest found before (ac ++ if text ≠ "" then [text] else [])
    else
      adfLoop rest found (before ++ if text ≠ "" then [text] else []) ac

/-- Embedding of `adfToPlain`: extracts plain text from an ADF document,
separating the description from an acceptance-criteria section. -/
def adfToPlain (adfJson : JsVal) : String × String :=
  if jsFalsy adfJson || !jsTypeofObject adfJson then ("", "") else
  let (before, ac) := adfLoop (contentArr adfJson) false [] []
  (jsTrim (String.intercalate "\n" before), jsTrim (String.intercalate "\n" ac))

/-! ## Global regex replacement

`replaceGo step fuel cs` models JavaScript `String.prototype.replace` with
a global regex: scan left to right; at each position, if the matcher
`step` succeeds it returns the replacement text and the suffix after the
match, and scanning resumes there; otherwise the current character is
emitted and scanning advances one position.  Every matcher used below
consumes at least one character, so fuel equal to the input length is
exact. -/

def replaceGo (step : List Char → Option (List Char × List Char)) :
    Nat → List Char → List Char
  | 0, cs => cs
  | _ + 1, [] => []
  | f + 1, c :: rest =>
    match step (c :: rest) with
    | some (rep, suf) => rep ++ replaceGo step f suf
    | none => c :: replaceGo step f rest

/-- One global replacement pass over a character list. -/
def applyRule (step : List Char → Option (List Char × List Char))
    (cs : List Char) : List Char :=
  replaceGo step cs.length cs

/-! ### The matchers for the patterns in `htmlToPlain` (lines 164-188)
and `decodeHtmlEntities` (lines 153-162).  Each returns the replacement
and the remaining input on success. -/

/-- `/<\/li>\s*<li>/gi` replaced by `'</li>\n<li>'`. -/
def ruleLiLi (s : List Char) : Option (List Char × List Char) :=
  match dropLitCi "</li>".data s with
  | none => none
  | some r1 =>
    match dropLitCi "<li>".data (r1.dropWhile jsWs) with
    | none => none
    | some r2 => some ("</li>\n<li>".data, r2)

/-- `/<li[^>]*>/gi` replaced by `'\n- '`. -/
def ruleLiOpen (s : List Char) : Option (List Char × List Char) :=
  match dropLitCi "<li".data s with
  | none => none
  | some r1 =>
    match r1.dropWhile (fun c => !(c == '>')) with
    | '>' :: r2 => some ("\n- ".data, r2)
    | _ => none

/-- `/<\/li>/gi` deleted. -/
def ruleLiClose (s : List Char) : Option (List Char × List Char) :=
  match dropLitCi "</li>".data s with
  | none => none
  | some r => some ([], r)

/-- `/<br\s*\/?>/gi` replaced by `'\n'`. -/
def ruleBr (s : List Char) : Option (List Char × List Char) :=
  match dropLitCi "<br".data s with
  | none => none
  | some r1 =>
    match r1.dropWhile jsWs with
    | '/' :: '>' :: r2 => some ("\n".data, r2)
    | '>' :: r2 => some ("\n".data, r2)
    | _ => none

/-- `/<\/p>\s*<p[^>]*>/gi` replaced by `'\n\n'`. -/
def rulePP (s : List Char) : Option (List Char × List Char) :=
  match dropLitCi "</p>".data s with
  | none => none
  | some r1 =>
    match dropLitCi "<p".data (r1.dropWhile jsWs) with
    | none => none
    | some r2 =>
      match r2.dropWhile (fun c => !(c == '>')) with
      | '>' :: r3 => some ("\n\n".data, r3)
      | _ => none

/-- `/<p[^>]*>/gi` deleted. -/
def rulePOpen (s : List Char) : Option (List Char × List Char) :=
  match dropLitCi "<p".data s with
  | none => none
  | some r1 =>
    match r1.dropWhile (fun c => !(c == '>')) with
    | '>' :: r2 => some ([], r2)
    | _ => none

/-- `/<\/p>/gi` replaced by `'\n'`. -/
def rulePClose (s : List Char) : Option (List Char × List Char) :=
  match dropLitCi "</p>".data s with
  | none => none
  | some r => some ("\n".data, r)

/-- `/<[^>]+>/g` deleted: strips any remaining tag with a non-empty
body. -/
def ruleTag (s : List Char) : Option (List Char × List Char) :=
  match s with
  | c :: r1 =>
    if c = '<' then
      match r1.takeWhile (fun c => !(c == '>')), r1.dropWhile (fun c => !(c == '>')) with
      | [], _ => none
      | _ :: _, '>' :: r2 => some ([], r2)
      | _, _ => none
    else none
  | [] => none

/-- A case-sensitive literal entity replacement such as
`/&nbsp;/g → ' '`. -/
def ruleLit (pat rep : List Char) (s : List Char) :
    Option (List Char × List Char) :=
  match dropLitCs pat s with
  | none => none
  | some r => some (rep, r)

/-- `String.fromCharCode` on a parsed decimal: the code point is reduced
modulo 2^16 (JavaScript `ToUint16`); an unpaired-surrogate result has no
Lean `Char` counterpart and degrades to the null character. -/
def jsCharOfCode (n : Nat) : Char := Char.ofNat (n % 65536)

/-- `parseInt(d, 10)` on a non-empty run of decimal digits. -/
def digitsToNat (acc : Nat) : List Char → Nat
  | [] => acc
  | d :: ds => digitsToNat (acc * 10 + (d.toNat - 48)) ds

/-- `/&#(\d+);/g` replaced by `String.fromCharCode(parseInt(d, 10))`. -/
def ruleNum (s : List Char) : Option (List Char × List Char) :=
  match dropLitCs "&#".data s with
  | none => none
  | some r1 =>
    match r1.takeWhile Char.isDigit, r1.dropWhile Char.isDigit with
    | [], _ => none
    | ds, ';' :: r2 =>
      some ([jsCharOfCode (digitsToNat 0 ds)], r2)
    | _, _ => none

/-- `/\r/g` deleted. -/
def ruleCR (s : List Char) : Option (List Char × List Char) :=
  match s with
  | c :: r => if c = '\r' then some ([], r) else none
  | [] => none

/-- `/[ \t]+\n/g` replaced by `'\n'`: a non-empty space/tab run
immediately followed by a newline. -/
def ruleWsNl (s : List Char) : Option (List Char × List Char) :=
  if s.takeWhile isSpTab ≠ [] ∧ (s.dropWhile isSpTab).head? = some '\n' then
    some ("\n".data, (s.dropWhile isSpTab).tail)
  else none

/-- `/\n{3,}/g` replaced by `'\n\n'`: a maximal newline run of length at
least three. -/
def ruleNl3 (s : List Char) : Option (List Char × List Char) :=
  if 3 ≤ (s.takeWhile (fun c => c == '\n')).length then
    some ("\n\n".data, s.dropWhile (fun c => c == '\n'))
  else none

/-- Embedding of `decodeHtmlEntities` (lines 153-162): the six literal
entity replacements followed by decimal character references, in source
order. -/
def decodeHtmlEntitiesL (cs : List Char) : List Char :=
  applyRule ruleNum
    (applyRule (ruleLit "&#39;".data "'".data)
      (applyRule (ruleLit "&quot;".data "\"".data)
        (applyRule (ruleLit "&gt;".data ">".data)
          (applyRule (ruleLit "&lt;".data "<".data)
            (applyRule (ruleLit "&amp;".data "&".data)
              (applyRule (ruleLit "&nbsp;".data " ".data) cs))))))

/-- Embedding of `decodeHtmlEntities` on strings. -/
def decodeHtmlEntities (s : String) : String := ⟨decodeHtmlEntitiesL s.data⟩

/-- The tag-normalisation and stripping passes of `htmlToPlain`
(lines 169-178), in source order. -/
def stripTagsL (cs : List Char) : List Char :=
  applyRule ruleTag
    (applyRule rulePClose
      (applyRule rulePOpen
        (applyRule rulePP
          (applyRule ruleBr
            (applyRule ruleLiClose
              (applyRule ruleLiOpen
                (applyRule ruleLiLi cs)))))))

/-- The cleanup passes of `htmlToPlain` (lines 181-185): strip carriage
returns, trim whitespace before newlines, collapse runs of three or more
newlines, then trim. -/
def cleanupL (cs : List Char) : List Char :=
  jsTrimL (applyRule ruleNl3 (applyRule ruleWsNl (applyRule ruleCR cs)))

/-- Embedding of `htmlToPlain` (lines 164-188). -/
def htmlToPlain (html : String) : String :=
  if html = "" then "" else
  ⟨cleanupL (decodeHtmlEntitiesL (stripTagsL html.data))⟩

/-! ## `extractSectionByHeading` (jiraService.ts lines 193-219) -/

/-- The closing-tag pattern `<\/h[1-6]>` (case-insensitive), matched at
the head of the input; returns the remainder. -/
def headClose : List Char → Option (List Char)
  | '<' :: '/' :: h :: d :: '>' :: rest =>
    if lowerAscii h = 'h' ∧ '1' ≤ d ∧ d ≤ '6' then some rest else none
  | _ => none

/-- The lazy scan `[\s\S]*?<\/h[1-6]>`: length of input consumed up to
and including the first closing heading tag, if any. -/
def findClose : Nat → List Char → Option Nat
  | 0, _ => none
  | _ + 1, [] => none
  | f + 1, c :: rest =>
    match headClose (c :: rest) with
    | some _ => some 5
    | none => (findClose f rest).map (· + 1)

/-- Attempt to match `/<h[1-6][^>]*>[\s\S]*?<\/h[1-6]>/i` at the head of
the input, returning the total match length. -/
def matchHeadingAt (cs : List Char) : Option Nat :=
  match cs with
  | '<' :: h :: d :: rest =>
    if lowerAscii h = 'h' ∧ '1' ≤ d ∧ d ≤ '6' then
      match rest.dropWhile (fun c => !(c == '>')) with
      | c2 :: body =>
        if c2 = '>' then
          (findClose body.length body).map
            (fun n => 3 + (rest.takeWhile (fun c => !(c == '>'))).length + 1 + n)
        else none
      | [] => none
    else none
  | _ => none

/-- The `exec` loop of `extractSectionByHeading`: all heading matches as
`(start, end)` index pairs, scanning left to right without overlap. -/
def scanHeadings : Nat → Nat → List Char → List (Nat × Nat)
  | 0, _, _ => []
  | _ + 1, _, [] => []
  | f + 1, pos, c :: rest =>
    match matchHeadingAt (c :: rest) with
    | some len =>
      (pos, pos + len) :: scanHeadings f (pos + len) ((c :: rest).drop len)
    | none => scanHeadings f (pos + 1) rest

/-- `String.prototype.slice` with both indices in range: the characters
from `a` (inclusive) to `b` (exclusive). -/
def sliceL (cs : List Char) (a b : Nat) : List Char := (cs.take b).drop a

/-- The plain-text rendering of a heading match, as stored by the scan
loop: `htmlToPlain(raw).trim()`. -/
def headingText (cs : List Char) (h : Nat × Nat) : String :=
  jsTrim (htmlToPlain ⟨sliceL cs h.1 h.2⟩)

/-- First element satisfying `p` together with the elements after it. -/
def findFirstMatch (p : Nat × Nat → Bool) :
    List (Nat × Nat) → Option ((Nat × Nat) × List (Nat × Nat))
  | [] => none
  | h :: t => if p h then some (h, t) else findFirstMatch p t

/-- Embedding of `extractSectionByHeading`: finds the first `<h1>`-`<h6>`
heading whose plain-text rendering satisfies `contains` and splits the
document around the section that follows it.  The regex argument of the
source is modelled as the predicate `contains`. -/
def extractSectionByHeading (html : String) (contains : String → Bool) :
    Option (String × String) :=
  if html = "" then none else
  let cs := html.data
  let headings := scanHeadings cs.length 0 cs
  match findFirstMatch (fun h => contains (headingText cs h)) headings with
  | none => none
  | some (acHead, after) =>
    let sectionStart := acHead.2
    let sectionEnd := match after with
      | (s, _) :: _ => s
      | [] => cs.length
    let sectionHtml := sliceL cs sectionStart sectionEnd
    let withoutSectionHtml := sliceL cs 0 acHead.1 ++ cs.drop sectionEnd
    some (⟨sectionHtml⟩, ⟨withoutSectionHtml⟩)

/-- The test `/acceptance\s*criteria/i.test(text)`: an occurrence of
"acceptance", optional whitespace, "criteria" anywhere in the string,
case-insensitively. -/
def acPatternTest (s : String) : Bool := go s.data
where
  go : List Char → Bool
  | [] => false
  | c :: cs =>
    (match dropLitCi "acceptance".data (c :: cs) with
     | some r1 => (dropLitCi "criteria".data (r1.dropWhile jsWs)).isSome
     | none => false) || go cs

/-! ## The description / acceptance-criteria resolution of `getStory`
(jiraService.ts lines 259-350)

`getStory` fetches the issue and then derives the two plain-text fields.
The derivation is pure; it is embedded as `resolveStory`, parameterised
by the platform built-ins `JSON.parse` (which may fail) and
`JSON.stringify`, the configured custom-field key from the environment,
and the fetched issue payload `data`. -/

/-- A falsiness test for a JavaScript `string | undefined` variable
(`!descriptionPlain` / `!acPlain`): unset or empty. -/
def optFalsy : Option String → Bool
  | none => true
  | some s => s == ""

/-- JavaScript `String(v)` coercion, via size fuel for nested arrays
(array elements that are `null` stringify to the empty string). -/
def jsToStringGo : Nat → JsVal → String
  | 0, _ => ""
  | f + 1, v =>
    match v with
    | .str s => s
    | .num n => toString n
    | .bool b => if b then "true" else "false"
    | .nul => "null"
    | .obj _ => "[object Object]"
    | .arr xs => String.intercalate "," (xs.toList.map (fun x =>
        match x with
        | .nul => ""
        | y => jsToStringGo f y))

/-- JavaScript `String(v)`. -/
def jsToString (v : JsVal) : String := jsToStringGo (jsSize v) v

/-- `(typeof v === 'string') ? htmlToPlain(v) : htmlToPlain(JSON.stringify(v))`. -/
def jsValToHtmlPlain (stringify : JsVal → String) (v : JsVal) : String :=
  match v with
  | .str s => htmlToPlain s
  | _ => htmlToPlain (stringify v)

/-- `data.fields?.hasOwnProperty(k)` under the documented shape in which
`fields`, when present, is an object. -/
def hasOwnField (data : JsVal) (k : String) : Bool :=
  match fieldOf data "fields" with
  | some (.obj fs) => (lookupField fs k).isSome
  | _ => false

/-- `data.fields?.[k]`. -/
def fieldsLookup (data : JsVal) (k : String) : Option JsVal :=
  match fieldOf data "fields" with
  | some f => fieldOf f k
  | none => none

/-- Resolution step 1 (lines 271-276): the configured custom
acceptance-criteria field, when the environment names one and the payload
carries it. -/
def configuredAc (stringify : JsVal → String) (configuredKey : Option String)
    (data : JsVal) : Option String :=
  match configuredKey with
  | some k =>
    if !(k == "") && hasOwnField data k then
      match fieldsLookup data k with
      | some v => some (jsValToHtmlPlain stringify v)
      | none => none
    else none
  | none => none

/-- `data.names || {}` under the documented shape in which `names`, when
present, is an object mapping field ids to display labels. -/
def namesObj (data : JsVal) : JsObj :=
  match fieldOf data "names" with
  | some (.obj ns) => ns
  | _ => .nil

/-- The step-2 label test: `String(label || '').toLowerCase()` contains
both "acceptance" and "criteria". -/
def labelMatchesAC (label : JsVal) : Bool :=
  let lbl := if jsFalsy label then "" else jsToString label
  let lower : List Char := lbl.data.map lowerAscii
  containsSub lower "acceptance".data && containsSub lower "criteria".data

/-- Resolution step 2 (lines 279-291): scan the field-name map for a
label containing both "acceptance" and "criteria" (case-insensitive) with
a non-null field value. -/
def acDiscover (stringify : JsVal → String) (data : JsVal) : JsObj → Option String
  | .nil => none
  | .cons fieldId label rest =>
    if labelMatchesAC label then
      match fieldsLookup data fieldId with
      | some v =>
        match v with
        | .nul => acDiscover stringify data rest
        | _ => some (jsValToHtmlPlain stringify v)
      | none => acDiscover stringify data rest
    else acDiscover stringify data rest

/-- `desc.type === 'doc' && Array.isArray(desc.content)`. -/
def isAdfDoc (d : JsVal) : Bool :=
  typeIs d "doc" &&
  (match fieldOf d "content" with
   | some (.arr _) => true
   | _ => false)

/-- `data.renderedFields?.description` under the documented shape in
which the rendered description, when present, is an HTML string. -/
def renderedDesc (data : JsVal) : Option String :=
  match fieldOf data "renderedFields" with
  | some rf =>
    match fieldOf rf "description" with
    | some (.str r) => some r
    | _ => none
  | none => none

/-- Embedding of the pure field-resolution logic of `getStory`
(lines 265-349, excluding the network fetch): returns the
`(description, acceptanceCriteria)` pair of the response. -/
def resolveStory (parse : String → Option JsVal) (stringify : JsVal → String)
    (configuredKey : Option String) (data : JsVal) : String × String :=
  let ac1 := configuredAc stringify configuredKey data
  let ac2 := if optFalsy ac1 then acDiscover stringify data (namesObj data) else ac1
  let descVal := fieldsLookup data "description"
  let p3 : Option String × Option String :=
    if optFalsy ac2 && (match descVal with
        | some d => !jsFalsy d
        | none => false) then
      match descVal with
      | some desc =>
        if jsTypeofObject desc && isAdfDoc desc then
          let (d, a) := adfToPlain desc
          (some d, some a)
        else
          match desc with
          | .str s =>
            match parse s with
            | some parsed =>
              if isAdfDoc parsed then
                let (d, a) := adfToPlain parsed
                (some d, some a)
              else (some s, ac2)
            | none => (some s, ac2)
          | _ => (none, ac2)
      | none => (none, ac2)
    else (none, ac2)
  let p4 : Option String × Option String :=
    if optFalsy p3.2 && (match renderedDesc data with
        | some r => !(r == "")
        | none => false) then
      match renderedDesc data with
      | some r =>
        match extractSectionByHeading r acPatternTest with
        | some (sec, without) =>
          if sec ≠ "" then (some (htmlToPlain without), some (htmlToPlain sec))
          else if optFalsy p3.1 then (some (htmlToPlain r), p3.2)
          else (p3.1, p3.2)
        | none =>
          if optFalsy p3.1 then (some (htmlToPlain r), p3.2)
          else (p3.1, p3.2)
      | none => (p3.1, p3.2)
    else (p3.1, p3.2)
  let desc5 : Option String :=
    if optFalsy p4.1 then
      if (match renderedDesc data with
          | some r => !(r == "")
          | none => false) then
        (renderedDesc data).map htmlToPlain
      else
        match descVal with
        | some (.str s) => some (jsTrim s)
        | some d => if !jsFalsy d then some (htmlToPlain (stringify d)) else p4.1
        | none => p4.1
    else p4.1
  ((match desc5 with | some s => s | none => ""),
   (match p4.2 with | some s => s | none => ""))

/-! ## Recursion infrastructure: the fuel in `extractGo` is irrelevant
once it bounds the node size, giving the expected one-step unfolding of
`extractTextFromNode`. -/

theorem jsSize_pos (j : JsVal) : 1 ≤ jsSize j := by
  cases j <;> simp [jsSize]

theorem lookupField_size : ∀ {fs : JsObj} {k : String} {v : JsVal},
    lookupField fs k = some v → jsSize v < 1 + jsSizeO fs
  | .nil, _, _, h => by simp [lookupField] at h
  | .cons key val tl, k, v, h => by
    simp only [lookupField] at h
    split at h
    · cases h
      simp only [jsSizeO]
      omega
    · have := lookupField_size h
      simp only [jsSizeO]
      omega

theorem toList_mem_size : ∀ {xs : JsArr} {x : JsVal},
    x ∈ xs.toList → jsSize x < 1 + jsSizeA xs
  | .nil, _, h => by simp [JsArr.toList] at h
  | .cons hd tl, x, h => by
    simp only [JsArr.toList, List.mem_cons] at h
    rcases h with rfl | h
    · simp only [jsSizeA]
      omega
    · have := toList_mem_size h
      simp only [jsSizeA]
      omega

theorem contentArr_size {j x : JsVal} (h : x ∈ contentArr j) :
    jsSize x < jsSize j := by
  cases j with
  | obj fs =>
    simp only [contentArr, fieldOf] at h
    cases hf : lookupField fs "content" with
    | none => rw [hf] at h; simp at h
    | some v =>
      rw [hf] at h
      cases v with
      | nul => simp at h
      | bool b => simp at h
      | num n => simp at h
      | str s => simp at h
      | obj o => simp at h
      | arr xs =>
        have h1 := toList_mem_size h
        have h2 := lookupField_size hf
        simp only [jsSize] at h2 ⊢
        omega
  | nul => simp [contentArr, fieldOf] at h
  | bool b => simp [contentArr, fieldOf] at h
  | num n => simp [contentArr, fieldOf] at h
  | str s => simp [contentArr, fieldOf] at h
  | arr xs => simp [contentArr, fieldOf] at h

theorem contentArr_of_field {j : JsVal} {xs : JsArr}
    (h : fieldOf j "content" = some (.arr xs)) : contentArr j = xs.toList := by
  simp [contentArr, h]

theorem extractBody_congr {r1 r2 : JsVal → String} {j : JsVal}
    (h : ∀ x ∈ contentArr j, r1 x = r2 x) :
    extractBody r1 j = extractBody r2 j := by
  unfold extractBody
  have hm : (contentArr j).map r1 = (contentArr j).map r2 := List.map_congr_left h
  rw [hm]

theorem extractGo_congr : ∀ (f1 : Nat) (j : JsVal) (f2 : Nat),
    jsSize j ≤ f1 → jsSize j ≤ f2 → extractGo f1 j = extractGo f2 j := by
  intro f1
  induction f1 with
  | zero =>
    intro j f2 h1 _
    have := jsSize_pos j
    omega
  | succ f ih =>
    intro j f2 h1 h2
    cases f2 with
    | zero =>
      have := jsSize_pos j
      omega
    | succ g =>
      show extractBody (extractGo f) j = extractBody (extractGo g) j
      apply extractBody_congr
      intro x hx
      have hs := contentArr_size hx
      exact ih x g (by omega) (by omega)

/-- The defining equation of `extractTextFromNode`, mirroring the
recursive structure of the JavaScript function. -/
theorem extractTextFromNode_eq (j : JsVal) :
    extractTextFromNode j = extractBody extractTextFromNode j := by
  have h1 : 1 ≤ jsSize j := jsSize_pos j
  obtain ⟨f, hf⟩ : ∃ f, jsSize j = f + 1 := ⟨jsSize j - 1, by omega⟩
  show extractGo (jsSize j) j = _
  rw [hf]
  show extractBody (extractGo f) j = _
  apply extractBody_congr
  intro x hx
  have hs := contentArr_size hx
  show extractGo f x = extractGo (jsSize x) x
  exact extractGo_congr f x (jsSize x) (by omega) (by omega)

/-! ## Claim theorems -/

/-- C2: every extractor is a total function by construction (it returns a
value for every `JsVal`/`String` input, so no input can raise).  The
documented degradations hold: a falsy or non-object document yields empty
outputs; a `text` node with no `text` field and a `paragraph` node with
no `content` field render empty; a node of unrecognized type whose
`content` is an array renders as its children joined by newlines; any
other unrecognized shape renders empty; `htmlToPlain` maps the empty
string to itself. -/
theorem extractors_total_spec :
    (∀ j : JsVal, jsFalsy j = true → adfToPlain j = ("", "")) ∧
    (∀ j : JsVal, jsTypeofObject j = false → adfToPlain j = ("", "")) ∧
    (∀ fs : JsObj, lookupField fs "type" = some (.str "text") →
      lookupField fs "text" = none → extractTextFromNode (.obj fs) = "") ∧
    (∀ fs : JsObj, lookupField fs "type" = some (.str "paragraph") →
      lookupField fs "content" = none → extractTextFromNode (.obj fs) = "") ∧
    (∀ (j : JsVal) (xs : JsArr), jsFalsy j = false →
      typeIs j "text" = false → typeIs j "paragraph" = false →
      typeIs j "bulletList" = false → typeIs j "orderedList" = false →
      typeIs j "listItem" = false →
      fieldOf j "content" = some (.arr xs) →
      extractTextFromNode j =
        String.intercalate "\n" (xs.toList.map extractTextFromNode)) ∧
    (∀ j : JsVal, jsFalsy j = false →
      typeIs j "text" = false → typeIs j "paragraph" = false →
      typeIs j "bulletList" = false → typeIs j "orderedList" = false →
      typeIs j "listItem" = false →
      (∀ xs : JsArr, fieldOf j "content" ≠ some (.arr xs)) →
      extractTextFromNode j = "") ∧
    htmlToPlain "" = "" := by
  refine ⟨?_, ?_, ?_, ?_, ?_, ?_, rfl⟩
  · intro j h
    simp [adfToPlain, h]
  · intro j h
    simp [adfToPlain, h]
  · intro fs h1 h2
    rw [extractTextFromNode_eq]
    simp [extractBody, typeIs, textField, fieldOf, jsFalsy, h1, h2]
  · intro fs h1 h2
    rw [extractTextFromNode_eq]
    simp only [extractBody, typeIs, textField, contentArr, fieldOf, jsFalsy, h1, h2]
    rfl
  · intro j xs h0 h1 h2 h3 h4 h5 hc
    rw [extractTextFromNode_eq]
    simp [extractBody, h0, h1, h2, h3, h4, h5, hc, contentArr_of_field hc]
  · intro j h0 h1 h2 h3 h4 h5 hc
    rw [extractTextFromNode_eq]
    cases hf : fieldOf j "content" with
    | none => simp [extractBody, h0, h1, h2, h3, h4, h5, hf]
    | some v =>
      cases v with
      | arr xs => exact absurd hf (hc xs)
      | nul => simp [extractBody, h0, h1, h2, h3, h4, h5, hf]
      | bool b => simp [extractBody, h0, h1, h2, h3, h4, h5, hf]
      | num n => simp [extractBody, h0, h1, h2, h3, h4, h5, hf]
      | str s => simp [extractBody, h0, h1, h2, h3, h4, h5, hf]
      | obj o => simp [extractBody, h0, h1, h2, h3, h4, h5, hf]

/-- Witness for C2 at concrete inputs: a null document, a number
document, a text node missing its `text` field, and an unrecognized
`panel` node with children. -/
theorem extractors_total_spec_witness :
    adfToPlain JsVal.nul = ("", "") ∧
    adfToPlain (JsVal.num 7) = ("", "") ∧
    extractTextFromNode (.obj (.cons "type" (.str "text") .nil)) = "" ∧
    extractTextFromNode (jobj [("type", .str "panel"),
      ("content", jarr [jobj [("type", .str "text"), ("text", .str "a")],
                        jobj [("type", .str "text"), ("text", .str "b")]])])
      = "a\nb" := by
  refine ⟨extractors_total_spec.1 JsVal.nul (by rfl),
          extractors_total_spec.2.1 (JsVal.num 7) (by rfl),
          extractors_total_spec.2.2.1 (.cons "type" (.str "text") .nil)
            (by rfl) (by rfl), ?_⟩
  rw [extractors_total_spec.2.2.2.2.1 _
    (JsArr.ofList [jobj [("type", .str "text"), ("text", .str "a")],
                   jobj [("type", .str "text"), ("text", .str "b")]])
    (by rfl) (by rfl) (by rfl) (by rfl) (by rfl) (by rfl)
    (by rfl)]
  decide

/-- C7: the worked structured-document example: a paragraph, the
"Acceptance Criteria:" boundary paragraph, and two single-item bullet
lists split into the expected description and bullet-rendered
acceptance criteria. -/
theorem adfToPlain_example_spec :
    adfToPlain (jobj [("type", .str "doc"), ("content", jarr
      [jobj [("type", .str "paragraph"),
             ("content", jarr [jobj [("type", .str "text"), ("text", .str "Desc line")]])],
       jobj [("type", .str "paragraph"),
             ("content", jarr [jobj [("type", .str "text"), ("text", .str "Acceptance Criteria:")]])],
       jobj [("type", .str "bulletList"),
             ("content", jarr [jobj [("type", .str "listItem"),
               ("content", jarr [jobj [("type", .str "paragraph"),
                 ("content", jarr [jobj [("type", .str "text"), ("text", .str "item one")]])]])]])],
       jobj [("type", .str "bulletList"),
             ("content", jarr [jobj [("type", .str "listItem"),
               ("content", jarr [jobj [("type", .str "paragraph"),
                 ("content", jarr [jobj [("type", .str "text"), ("text", .str "item two")]])]])]])]])])
    = ("Desc line", "- item one\n- item two") := by decide

/-- C3 counterexample: on `"<p>Hello</p><p>World</p>"` the code does not
return `"Hello\nWorld"` (the `</p><p>` transition becomes a double
newline, not a single one). -/
theorem htmlToPlain_pp_counterexample :
    htmlToPlain "<p>Hello</p><p>World</p>" ≠ "Hello\nWorld" := by decide

/-- C3 amended: `htmlToPlain "<p>Hello</p><p>World</p>"` returns
`"Hello\n\nWorld"` — the `</p>` immediately followed by `<p>` is
replaced by a double newline (source rule `/<\/p>\s*<p[^>]*>/gi → '\n\n'`),
which the final cleanup does not collapse. -/
theorem htmlToPlain_pp_spec :
    htmlToPlain "<p>Hello</p><p>World</p>" = "Hello\n\nWorld" := by decide

/-- C4 counterexample: on `"<ul><li>A</li><li>B</li></ul>"` the code does
not return `"- A\n- B"`. -/
theorem htmlToPlain_ul_counterexample :
    htmlToPlain "<ul><li>A</li><li>B</li></ul>" ≠ "- A\n- B" := by decide

/-- C4 amended: `htmlToPlain "<ul><li>A</li><li>B</li></ul>"` returns
`"- A\n\n- B"` — rule `/<\/li>\s*<li>/gi` first inserts a newline between
the items and rule `/<li[^>]*>/gi → '\n- '` then inserts a second one,
and a two-newline run survives the cleanup. -/
theorem htmlToPlain_ul_spec :
    htmlToPlain "<ul><li>A</li><li>B</li></ul>" = "- A\n\n- B" := by decide

/-- C8: entity decoding is a single pass: the double-encoded input
`"&amp;nbsp;"` decodes one level only, yielding the literal string
`"&nbsp;"`, which is not a space. -/
theorem htmlToPlain_entity_once_spec :
    htmlToPlain "&amp;nbsp;" = "&nbsp;" ∧ ("&nbsp;" : String) ≠ " " := by decide

/-! ## C1: characterization of the `adfToPlain` split -/

/-- Index of the first rendered node text matching the
acceptance-criteria boundary pattern. -/
def findACIdx : List String → Option Nat
  | [] => none
  | t :: ts => if isACBoundary t then some 0 else (findACIdx ts).map (· + 1)

/-- The per-node rendered, trimmed text used by the `adfToPlain` loop. -/
def nodeText (n : JsVal) : String := jsTrim (extractTextFromNode n)

theorem cons_filter_eq (text : String) (l : List String) :
    (if text ≠ "" then [text] else []) ++ l.filter (fun t => t ≠ "") =
      (text :: l).filter (fun t => t ≠ "") := by
  by_cases h : text = "" <;> simp [h, List.filter_cons]

theorem adfLoop_found (ns : List JsVal) (before ac : List String) :
    adfLoop ns true before ac =
      (before, ac ++ (ns.map nodeText).filter (fun t => t ≠ "")) := by
  induction ns generalizing ac with
  | nil => simp [adfLoop]
  | cons n rest ih =>
    simp only [adfLoop, Bool.not_true, Bool.false_and, Bool.false_eq_true,
      if_false, if_true, List.map_cons]
    rw [ih]
    rw [List.append_assoc, cons_filter_eq]
    rfl

theorem adfLoop_search_some : ∀ (ns : List JsVal) (before : List String) (i : Nat),
    findACIdx (ns.map nodeText) = some i →
    adfLoop ns false before [] =
      (before ++ ((ns.map nodeText).take i).filter (fun t => t ≠ ""),
       ((ns.map nodeText).drop (i + 1)).filter (fun t => t ≠ "")) := by
  intro ns
  induction ns with
  | nil => intro before i h; simp [findACIdx] at h
  | cons n rest ih =>
    intro before i h
    simp only [List.map_cons, findACIdx] at h
    by_cases hb : isACBoundary (nodeText n) = true
    · rw [if_pos hb] at h
      cases h
      simp only [adfLoop, List.map_cons]
      rw [show (jsTrim (extractTextFromNode n)) = nodeText n from rfl, hb]
      simp only [Bool.not_false, Bool.true_and, if_true, List.take_zero,
        List.filter_nil, List.append_nil, List.drop_succ_cons, List.drop_zero]
      exact adfLoop_found rest before []
    · rw [if_neg hb] at h
      rcases Option.map_eq_some'.mp h with ⟨i', hi', rfl⟩
      simp only [adfLoop, List.map_cons]
      rw [show (jsTrim (extractTextFromNode n)) = nodeText n from rfl]
      rw [if_neg (by simp [hb]), if_neg (by simp)]
      rw [ih (before ++ if nodeText n ≠ "" then [nodeText n] else []) i' hi']
      simp only [List.take_succ_cons, List.drop_succ_cons]
      rw [List.append_assoc, cons_filter_eq]

theorem adfLoop_search_none : ∀ (ns : List JsVal) (before : List String),
    findACIdx (ns.map nodeText) = none →
    adfLoop ns false before [] =
      (before ++ (ns.map nodeText).filter (fun t => t ≠ ""), []) := by
  intro ns
  induction ns with
  | nil => intro before _; simp [adfLoop]
  | cons n rest ih =>
    intro before h
    simp only [List.map_cons, findACIdx] at h
    by_cases hb : isACBoundary (nodeText n) = true
    · rw [if_pos hb] at h; cases h
    · rw [if_neg hb] at h
      have hr : findACIdx (rest.map nodeText) = none := by
        cases he : findACIdx (rest.map nodeText) with
        | none => rfl
        | some v => rw [he] at h; simp at h
      simp only [adfLoop, List.map_cons]
      rw [show (jsTrim (extractTextFromNode n)) = nodeText n from rfl]
      rw [if_neg (by simp [hb]), if_neg (by simp)]
      rw [ih (before ++ if nodeText n ≠ "" then [nodeText n] else []) hr]
      rw [List.append_assoc, cons_filter_eq]

/-- C1: `adfToPlain` walks the top-level content in order.  If some
node's rendered trimmed text matches the boundary pattern
`/^acceptance\s*criteria\s*:?\s*$/i` (with `i` the first such index),
that node is discarded, the non-empty rendered texts before it form the
description and the non-empty rendered texts after it form the
acceptance-criteria output (each newline-joined and trimmed); if no node
matches, the description is the full rendered text and the
acceptance-criteria output is empty. -/
theorem adfToPlain_split_spec (j : JsVal) (h1 : jsFalsy j = false)
    (h2 : jsTypeofObject j = true) :
    (∀ i, findACIdx ((contentArr j).map nodeText) = some i →
       adfToPlain j =
         (jsTrim (String.intercalate "\n"
            ((((contentArr j).map nodeText).take i).filter (fun t => t ≠ ""))),
          jsTrim (String.intercalate "\n"
            ((((contentArr j).map nodeText).drop (i + 1)).filter (fun t => t ≠ ""))))) ∧
    (findACIdx ((contentArr j).map nodeText) = none →
       adfToPlain j =
         (jsTrim (String.intercalate "\n"
            (((contentArr j).map nodeText).filter (fun t => t ≠ ""))), "")) := by
  constructor
  · intro i hi
    unfold adfToPlain
    rw [h1, h2]
    simp only [Bool.not_true, Bool.or_false, Bool.false_eq_true, if_false]
    rw [adfLoop_search_some (contentArr j) [] i hi]
    simp
  · intro hn
    unfold adfToPlain
    rw [h1, h2]
    simp only [Bool.not_true, Bool.or_false, Bool.false_eq_true, if_false]
    rw [adfLoop_search_none (contentArr j) [] hn]
    simp only [List.nil_append, String.intercalate]
    rfl

/-- Witness for C1: a document whose second node is the boundary splits
around it, and a document with no boundary keeps everything in the
description. -/
theorem adfToPlain_split_spec_witness :
    adfToPlain (jobj [("type", .str "doc"), ("content", jarr
      [jobj [("type", .str "paragraph"),
             ("content", jarr [jobj [("type", .str "text"), ("text", .str "A")]])],
       jobj [("type", .str "paragraph"),
             ("content", jarr [jobj [("type", .str "text"), ("text", .str "Acceptance criteria")]])],
       jobj [("type", .str "paragraph"),
             ("content", jarr [jobj [("type", .str "text"), ("text", .str "B")]])]])])
      = ("A", "B") ∧
    adfToPlain (jobj [("type", .str "doc"), ("content", jarr
      [jobj [("type", .str "paragraph"),
             ("content", jarr [jobj [("type", .str "text"), ("text", .str "Hello")]])]])])
      = ("Hello", "") := by
  constructor
  · rw [(adfToPlain_split_spec _ (by rfl) (by rfl)).1 1 (by decide)]
    decide
  · rw [(adfToPlain_split_spec _ (by rfl) (by rfl)).2 (by decide)]
    decide

/-! ## C5: `extractSectionByHeading` behaviour -/

theorem findFirstMatch_none (p : Nat × Nat → Bool) :
    ∀ l : List (Nat × Nat), (∀ x ∈ l, p x = false) → findFirstMatch p l = none := by
  intro l
  induction l with
  | nil => intro _; rfl
  | cons h t ih =>
    intro hall
    simp only [findFirstMatch]
    rw [hall h (List.mem_cons_self h t)]
    simp only [Bool.false_eq_true, if_false]
    exact ih (fun x hx => hall x (List.mem_cons_of_mem h hx))

/-- C5: on the worked example the matched section is the raw HTML
between the matching heading's closing tag and the next heading's opening
tag, and the remainder is the document with heading and section removed;
a heading with nested inline markup still matches (the pattern is tested
against the plain-text rendering); and when no scanned heading's rendered
text satisfies the pattern the result is `none`. -/
theorem extractSection_spec :
    extractSectionByHeading
      "<h2>Acceptance Criteria</h2><p>AC text</p><h2>Other</h2><p>ignored</p>"
      acPatternTest
      = some ("<p>AC text</p>", "<h2>Other</h2><p>ignored</p>") ∧
    extractSectionByHeading
      "<h3><strong>Acceptance Criteria</strong></h3><p>X</p>" acPatternTest
      = some ("<p>X</p>", "") ∧
    (∀ (html : String) (pat : String → Bool),
      (∀ h ∈ scanHeadings html.data.length 0 html.data,
        pat (headingText html.data h) = false) →
      extractSectionByHeading html pat = none) := by
  refine ⟨by decide, by decide, ?_⟩
  intro html pat hall
  unfold extractSectionByHeading
  by_cases he : html = ""
  · rw [if_pos he]
  · rw [if_neg he]
    have hn := findFirstMatch_none (fun h => pat (headingText html.data h))
      (scanHeadings html.data.length 0 html.data) hall
    simp only [hn]

/-- Witness for C5's universal part: a document with no headings returns
`none`. -/
theorem extractSection_spec_witness :
    extractSectionByHeading "<p>no headings here</p>" acPatternTest = none :=
  extractSection_spec.2.2 "<p>no headings here</p>" acPatternTest (by decide)

/-! ## C9: the resolution policy always returns strings, defaulting to
empty -/

/-- Conversion of a model object to an association list. -/
def JsObj.toList : JsObj → List (String × JsVal)
  | .nil => []
  | .cons k v rest => (k, v) :: rest.toList

theorem acDiscover_none (stringify : JsVal → String) (data : JsVal) :
    ∀ o : JsObj, (∀ p ∈ o.toList, labelMatchesAC p.2 = false) →
    acDiscover stringify data o = none
  | .nil, _ => rfl
  | .cons fieldId label rest, hall => by
    simp only [acDiscover]
    rw [hall (fieldId, label) (by simp [JsObj.toList])]
    simp only [Bool.false_eq_true, if_false]
    exact acDiscover_none stringify data rest
      (fun p hp => hall p (by simp [JsObj.toList, hp]))

/-- C9: for any payload with no configured acceptance-criteria field, no
discoverable acceptance-criteria field label, no `fields.description`,
and no rendered description, the resolution policy of `getStory` still
returns a pair of actual strings, both equal to the empty string (the
`|| ''` defaults). -/
theorem resolveStory_defaults_spec (parse : String → Option JsVal)
    (stringify : JsVal → String) (data : JsVal)
    (hnames : ∀ p ∈ (namesObj data).toList, labelMatchesAC p.2 = false)
    (hdesc : fieldsLookup data "description" = none)
    (hrend : renderedDesc data = none) :
    resolveStory parse stringify none data = ("", "") := by
  unfold resolveStory
  rw [acDiscover_none stringify data (namesObj data) hnames, hdesc, hrend]
  rfl

/-- Witness for C9: the empty payload resolves to a pair of empty
strings. -/
theorem resolveStory_defaults_spec_witness :
    resolveStory (fun _ => none) (fun _ => "") none (jobj []) = ("", "") :=
  resolveStory_defaults_spec (fun _ => none) (fun _ => "") (jobj [])
    (by decide) (by rfl) (by rfl)

/-! ## C10: frame property of `extractSectionByHeading` -/

theorem headClose_length {l r : List Char} (h : headClose l = some r) :
    l.length = r.length + 5 := by
  unfold headClose at h
  split at h
  · split at h
    · cases h
      simp
    · cases h
  · cases h

theorem findClose_bounds : ∀ (f : Nat) (l : List Char) (n : Nat),
    findClose f l = some n → 5 ≤ n ∧ n ≤ l.length := by
  intro f
  induction f with
  | zero => intro l n h; cases h
  | succ g ih =>
    intro l n h
    cases l with
    | nil => cases h
    | cons c rest =>
      simp only [findClose] at h
      cases hc : headClose (c :: rest) with
      | some r =>
        rw [hc] at h
        cases h
        have := headClose_length hc
        simp at this ⊢
        omega
      | none =>
        rw [hc] at h
        rcases Option.map_eq_some'.mp h with ⟨m, hm, rfl⟩
        have := ih rest m hm
        simp
        omega

theorem tw_dw_length (p : Char → Bool) (l : List Char) :
    (l.takeWhile p).length + (l.dropWhile p).length = l.length := by
  conv_rhs => rw [← @List.takeWhile_append_dropWhile _ p l]
  rw [List.length_append]

theorem matchHeadingAt_bounds {cs : List Char} {len : Nat}
    (h : matchHeadingAt cs = some len) : 1 ≤ len ∧ len ≤ cs.length := by
  unfold matchHeadingAt at h
  split at h
  case h_2 => cases h
  case h_1 hh d rest =>
    split at h
    · split at h
      · next c2 body heq =>
        split at h
        · rcases Option.map_eq_some'.mp h with ⟨n, hf, rfl⟩
          have hb := findClose_bounds body.length body n hf
          have hl := tw_dw_length (fun c => !(c == '>')) rest
          rw [heq] at hl
          simp only [List.length_cons] at hl ⊢
          omega
        · cases h
      · cases h
    · cases h

theorem scanHeadings_bounds : ∀ (f pos : Nat) (cs : List Char),
    ∀ pr ∈ scanHeadings f pos cs,
      pos ≤ pr.1 ∧ pr.1 ≤ pr.2 ∧ pr.2 ≤ pos + cs.length := by
  intro f
  induction f with
  | zero => intro pos cs pr h; cases h
  | succ g ih =>
    intro pos cs pr h
    cases cs with
    | nil => cases h
    | cons c rest =>
      simp only [scanHeadings] at h
      cases hm : matchHeadingAt (c :: rest) with
      | some len =>
        rw [hm] at h
        have hb := matchHeadingAt_bounds hm
        rcases List.mem_cons.mp h with rfl | h2
        · simp only [List.length_cons] at hb ⊢
          omega
        · have hr := ih (pos + len) ((c :: rest).drop len) pr h2
          simp only [List.length_drop, List.length_cons] at hr hb ⊢
          omega
      | none =>
        rw [hm] at h
        have hr := ih (pos + 1) rest pr h
        simp only [List.length_cons] at hr ⊢
        omega

theorem scan_found : ∀ (f pos : Nat) (cs : List Char)
    (p : Nat × Nat → Bool) (hd : Nat × Nat) (t : List (Nat × Nat)),
    findFirstMatch p (scanHeadings f pos cs) = some (hd, t) →
    (pos ≤ hd.1 ∧ hd.1 ≤ hd.2 ∧ hd.2 ≤ pos + cs.length) ∧
    (∀ q ∈ t, hd.2 ≤ q.1 ∧ q.1 ≤ q.2 ∧ q.2 ≤ pos + cs.length) := by
  intro f
  induction f with
  | zero => intro pos cs p hd t h; cases h
  | succ g ih =>
    intro pos cs p hd t h
    cases cs with
    | nil => cases h
    | cons c rest =>
      simp only [scanHeadings] at h
      cases hm : matchHeadingAt (c :: rest) with
      | some len =>
        rw [hm] at h
        have hb := matchHeadingAt_bounds hm
        simp only [findFirstMatch] at h
        split at h
        · cases h
          constructor
          · simp only [List.length_cons] at hb ⊢
            omega
          · intro q hq
            have hs := scanHeadings_bounds g (pos + len) ((c :: rest).drop len) q hq
            simp only [List.length_drop, List.length_cons] at hs hb ⊢
            omega
        · have hr := ih (pos + len) ((c :: rest).drop len) p hd t h
          simp only [List.length_drop, List.length_cons] at hr hb ⊢
          constructor
          · have := hr.1
            omega
          · intro q hq
            have := hr.2 q hq
            omega
      | none =>
        rw [hm] at h
        have hr := ih (pos + 1) rest p hd t h
        simp only [List.length_cons] at hr ⊢
        constructor
        · have := hr.1
          omega
        · intro q hq
          have := hr.2 q hq
          omega

theorem take_append_slice {cs : List Char} {a b : Nat} (h : a ≤ b) :
    cs.take a ++ sliceL cs a b = cs.take b := by
  unfold sliceL
  rw [show cs.take a = (cs.take b).take a by
    rw [List.take_take, Nat.min_eq_left h]]
  exact List.take_append_drop a (cs.take b)

/-- C10: whenever `extractSectionByHeading` succeeds, the input document
decomposes as `pre ++ headingRaw ++ sectionHtml ++ suf` and the returned
remainder is exactly `pre ++ suf` — every character outside the removed
heading and section survives unchanged and in order. -/
theorem extractSection_frame_spec (html : String) (pat : String → Bool)
    (sec rem : String)
    (h : extractSectionByHeading html pat = some (sec, rem)) :
    ∃ pre hraw suf, html.data = pre ++ hraw ++ sec.data ++ suf ∧
      rem.data = pre ++ suf := by
  unfold extractSectionByHeading at h
  by_cases he : html = ""
  · rw [if_pos he] at h
    cases h
  · rw [if_neg he] at h
    simp only at h
    cases hm : findFirstMatch
        (fun hh => pat (headingText html.data hh))
        (scanHeadings html.data.length 0 html.data) with
    | none => rw [hm] at h; cases h
    | some pr =>
      rw [hm] at h
      obtain ⟨acHead, after⟩ := pr
      simp only at h
      have hbounds := scan_found html.data.length 0 html.data _ acHead after hm
      obtain ⟨⟨_, h12, h2len⟩, hafter⟩ := hbounds
      simp only [Nat.zero_add] at h2len hafter
      cases h
      set cs := html.data with hcs
      set sE := (match after with
        | (s, _) :: _ => s
        | [] => cs.length) with hsE
      have hEsE : acHead.2 ≤ sE := by
        rw [hsE]
        cases after with
        | nil => exact h2len
        | cons q t => exact (hafter q (List.mem_cons_self q t)).1
      have hsElen : sE ≤ cs.length := by
        rw [hsE]
        cases after with
        | nil => exact Nat.le_refl _
        | cons q t =>
          have hq := hafter q (List.mem_cons_self q t)
          exact le_trans hq.2.1 hq.2.2
      refine ⟨cs.take acHead.1, sliceL cs acHead.1 acHead.2, cs.drop sE, ?_, ?_⟩
      · have e1 : cs.take acHead.1 ++ sliceL cs acHead.1 acHead.2 =
            cs.take acHead.2 := take_append_slice h12
        have e2 : cs.take acHead.2 ++ sliceL cs acHead.2 sE = cs.take sE :=
          take_append_slice hEsE
        calc cs = cs.take sE ++ cs.drop sE := (List.take_append_drop _ _).symm
          _ = (cs.take acHead.2 ++ sliceL cs acHead.2 sE) ++ cs.drop sE := by rw [e2]
          _ = ((cs.take acHead.1 ++ sliceL cs acHead.1 acHead.2) ++ sliceL cs acHead.2 sE)
                ++ cs.drop sE := by rw [e1]
          _ = _ := by simp [List.append_assoc]
      · show sliceL cs 0 acHead.1 ++ cs.drop sE = cs.take acHead.1 ++ cs.drop sE
        rw [show sliceL cs 0 acHead.1 = cs.take acHead.1 by
          unfold sliceL
          rw [List.drop_zero]]

/-- Witness for C10 at the worked example input. -/
theorem extractSection_frame_spec_witness :
    ∃ pre hraw suf,
      ("<h2>Acceptance Criteria</h2><p>AC text</p><h2>Other</h2><p>ignored</p>" : String).data
        = pre ++ hraw ++ ("<p>AC text</p>" : String).data ++ suf ∧
      ("<h2>Other</h2><p>ignored</p>" : String).data = pre ++ suf :=
  extractSection_frame_spec
    "<h2>Acceptance Criteria</h2><p>AC text</p><h2>Other</h2><p>ignored</p>"
    acPatternTest "<p>AC text</p>" "<h2>Other</h2><p>ignored</p>" (by decide)

/-! ## C6 machinery: identity of replacement passes on already-plain text -/

theorem eq_of_lowerAscii_eq {c d : Char} (hd : d.toNat < 97)
    (h : lowerAscii c = d) : c = d := by
  unfold lowerAscii at h
  split at h
  · exfalso
    next hAB =>
      obtain ⟨h1, h2⟩ := hAB
      rw [Char.le_def] at h1 h2
      have hn1 : 65 ≤ c.toNat := h1
      have hn2 : c.toNat ≤ 90 := h2
      have hv : Nat.isValidChar (c.toNat + 32) := by
        left
        omega
      have hdn : d.toNat = c.toNat + 32 := by
        rw [← h]
        show (Char.ofNat (c.toNat + 32)).toNat = c.toNat + 32
        unfold Char.ofNat
        rw [dif_pos hv]
        rfl
      omega
  · exact h

theorem dropLitCi_head {p : Char} {ps s r : List Char}
    (h : dropLitCi (p :: ps) s = some r) :
    ∃ c cs, s = c :: cs ∧ lowerAscii c = p := by
  cases s with
  | nil => cases h
  | cons c cs =>
    simp only [dropLitCi] at h
    split at h
    · exact ⟨c, cs, rfl, by assumption⟩
    · cases h

theorem dropLitCs_head {p : Char} {ps s r : List Char}
    (h : dropLitCs (p :: ps) s = some r) :
    ∃ cs, s = p :: cs := by
  cases s with
  | nil => cases h
  | cons c cs =>
    simp only [dropLitCs] at h
    split at h
    · next hc => exact ⟨cs, by rw [hc]⟩
    · cases h

theorem dropLitCi_head_lt {ps s r : List Char}
    (h : dropLitCi ('<' :: ps) s = some r) : s.head? = some '<' := by
  obtain ⟨c, cs, rfl, hc⟩ := dropLitCi_head h
  rw [eq_of_lowerAscii_eq (by decide) hc]
  rfl

theorem ruleLiLi_head {s : List Char} {pr : List Char × List Char}
    (h : ruleLiLi s = some pr) : s.head? = some '<' := by
  unfold ruleLiLi at h
  split at h
  · cases h
  · next heq => exact dropLitCi_head_lt heq

theorem ruleLiOpen_head {s : List Char} {pr : List Char × List Char}
    (h : ruleLiOpen s = some pr) : s.head? = some '<' := by
  unfold ruleLiOpen at h
  split at h
  · cases h
  · next heq => exact dropLitCi_head_lt heq

theorem ruleLiClose_head {s : List Char} {pr : List Char × List Char}
    (h : ruleLiClose s = some pr) : s.head? = some '<' := by
  unfold ruleLiClose at h
  split at h
  · cases h
  · next heq => exact dropLitCi_head_lt heq

theorem ruleBr_head {s : List Char} {pr : List Char × List Char}
    (h : ruleBr s = some pr) : s.head? = some '<' := by
  unfold ruleBr at h
  split at h
  · cases h
  · next heq => exact dropLitCi_head_lt heq

theorem rulePP_head {s : List Char} {pr : List Char × List Char}
    (h : rulePP s = some pr) : s.head? = some '<' := by
  unfold rulePP at h
  split at h
  · cases h
  · next heq => exact dropLitCi_head_lt heq

theorem rulePOpen_head {s : List Char} {pr : List Char × List Char}
    (h : rulePOpen s = some pr) : s.head? = some '<' := by
  unfold rulePOpen at h
  split at h
  · cases h
  · next heq => exact dropLitCi_head_lt heq

theorem rulePClose_head {s : List Char} {pr : List Char × List Char}
    (h : rulePClose s = some pr) : s.head? = some '<' := by
  unfold rulePClose at h
  split at h
  · cases h
  · next heq => exact dropLitCi_head_lt heq

theorem ruleTag_head {s : List Char} {pr : List Char × List Char}
    (h : ruleTag s = some pr) : s.head? = some '<' := by
  unfold ruleTag at h
  split at h
  · next c r1 =>
    split at h
    · next hc => rw [hc]; rfl
    · cases h
  · cases h

theorem ruleLit_head {p : Char} {ps rep s : List Char} {pr : List Char × List Char}
    (h : ruleLit (p :: ps) rep s = some pr) : s.head? = some p := by
  unfold ruleLit at h
  split at h
  · cases h
  · next heq =>
    obtain ⟨cs, rfl⟩ := dropLitCs_head heq
    rfl

theorem ruleNum_head {s : List Char} {pr : List Char × List Char}
    (h : ruleNum s = some pr) : s.head? = some '&' := by
  unfold ruleNum at h
  split at h
  · cases h
  · next heq =>
    obtain ⟨cs, rfl⟩ := dropLitCs_head heq
    rfl

theorem ruleCR_head {s : List Char} {pr : List Char × List Char}
    (h : ruleCR s = some pr) : s.head? = some '\r' := by
  unfold ruleCR at h
  split at h
  · next c r =>
    split at h
    · next hc => rw [hc]; rfl
    · cases h
  · cases h

/-- A replacement pass is the identity when its matcher fails at every
position. -/
theorem replaceGo_id (step : List Char → Option (List Char × List Char)) :
    ∀ (cs : List Char) (f : Nat), cs.length ≤ f →
    (∀ n, step (cs.drop n) = none) → replaceGo step f cs = cs := by
  intro cs
  induction cs with
  | nil => intro f _ _; cases f <;> rfl
  | cons c rest ih =>
    intro f hf h
    cases f with
    | zero => simp at hf
    | succ g =>
      simp only [replaceGo]
      have h0 := h 0
      simp only [List.drop_zero] at h0
      rw [h0]
      rw [ih g (by simpa using hf) (fun n => by
        have := h (n + 1)
        rwa [List.drop_succ_cons] at this)]

/-- A pass whose matcher only ever fires at a character `a` is the
identity on strings not containing `a`. -/
theorem applyRule_id_of_head (step : List Char → Option (List Char × List Char))
    (a : Char) (hhead : ∀ s pr, step s = some pr → s.head? = some a)
    (cs : List Char) (hnot : a ∉ cs) : applyRule step cs = cs := by
  apply replaceGo_id step cs cs.length (Nat.le_refl _)
  intro n
  cases he : step (cs.drop n) with
  | none => rfl
  | some pr =>
    exfalso
    have hh := hhead _ _ he
    cases hd : cs.drop n with
    | nil => rw [hd] at hh; cases hh
    | cons x xs =>
      rw [hd] at hh
      cases hh
      exact hnot (List.drop_subset n cs (hd ▸ List.mem_cons_self _ _))

/-- Characters of a pass output: replacement characters satisfy `P` and
match suffixes are sublists, so a character property true of the input
and of all replacements survives the pass. -/
theorem replaceGo_mem (step : List Char → Option (List Char × List Char))
    (P : Char → Prop)
    (hstep : ∀ s r suf, step s = some (r, suf) → (∀ c ∈ r, P c) ∧ suf ⊆ s) :
    ∀ (f : Nat) (cs : List Char), (∀ c ∈ cs, P c) →
      ∀ c ∈ replaceGo step f cs, P c := by
  intro f
  induction f with
  | zero => intro cs h c hc; exact h c hc
  | succ g ih =>
    intro cs h c hc
    cases cs with
    | nil => cases hc
    | cons a rest =>
      cases he : step (a :: rest) with
      | some pr =>
        obtain ⟨r, suf⟩ := pr
        simp only [replaceGo, he, List.mem_append] at hc
        rcases hc with h1 | h2
        · exact (hstep _ _ _ he).1 c h1
        · exact ih suf (fun x hx => h x ((hstep _ _ _ he).2 hx)) c h2
      | none =>
        simp only [replaceGo, he, List.mem_cons] at hc
        rcases hc with rfl | h2
        · exact h c (List.mem_cons_self _ _)
        · exact ih rest (fun x hx => h x (List.mem_cons_of_mem _ hx)) c h2

theorem ruleWsNl_decomp {s r suf : List Char}
    (h : ruleWsNl s = some (r, suf)) :
    r = "\n".data ∧ s.takeWhile isSpTab ≠ [] ∧
      s.dropWhile isSpTab = '\n' :: suf := by
  unfold ruleWsNl at h
  split at h
  · next hcond =>
    cases h
    obtain ⟨h1, h2⟩ := hcond
    refine ⟨rfl, h1, ?_⟩
    cases hd : s.dropWhile isSpTab with
    | nil => rw [hd] at h2; simp at h2
    | cons c t =>
      rw [hd] at h2
      simp only [List.head?_cons, Option.some.injEq] at h2
      subst h2
      rfl
  · cases h

theorem ruleWsNl_parts {s r suf : List Char}
    (h : ruleWsNl s = some (r, suf)) :
    r = "\n".data ∧ suf ⊆ s ∧ suf.length < s.length := by
  obtain ⟨hr, h1, h2⟩ := ruleWsNl_decomp h
  have hs := @List.takeWhile_append_dropWhile _ isSpTab s
  rw [h2] at hs
  refine ⟨hr, ?_, ?_⟩
  · intro x hx
    rw [← hs]
    exact List.mem_append_right _ (List.mem_cons_of_mem _ hx)
  · have hl := congrArg List.length hs
    simp only [List.length_append, List.length_cons] at hl
    omega

theorem ruleNl3_decomp {s r suf : List Char}
    (h : ruleNl3 s = some (r, suf)) :
    r = "\n\n".data ∧ 3 ≤ (s.takeWhile (fun c => c == '\n')).length ∧
      suf = s.dropWhile (fun c => c == '\n') := by
  unfold ruleNl3 at h
  split at h
  · next hcond =>
    cases h
    exact ⟨rfl, hcond, rfl⟩
  · cases h

theorem ruleNl3_parts {s r suf : List Char}
    (h : ruleNl3 s = some (r, suf)) :
    r = "\n\n".data ∧ suf ⊆ s ∧ suf.length < s.length := by
  obtain ⟨hr, h1, h2⟩ := ruleNl3_decomp h
  have hs := @List.takeWhile_append_dropWhile _ (fun c => c == '\n') s
  refine ⟨hr, ?_, ?_⟩
  · intro x hx
    rw [h2] at hx
    exact hs ▸ List.mem_append_right _ hx
  · have hl := congrArg List.length hs
    simp only [List.length_append] at hl
    rw [h2]
    omega

theorem ruleCR_parts {s r suf : List Char}
    (h : ruleCR s = some (r, suf)) :
    r = [] ∧ suf ⊆ s ∧ suf.length < s.length := by
  unfold ruleCR at h
  split at h
  · split at h
    · cases h
      refine ⟨rfl, fun x hx => List.mem_cons_of_mem _ hx, by simp⟩
    · cases h
  · cases h

theorem ruleCR_of_ne {c : Char} {rest : List Char} (hc : c ≠ '\r') :
    ruleCR (c :: rest) = none := by
  show (if c = '\r' then some (([] : List Char), rest) else none) = none
  rw [if_neg hc]

/-- The carriage-return pass removes every `'\r'`. -/
theorem cr_out_no_cr : ∀ (cs : List Char) (f : Nat), cs.length ≤ f →
    '\r' ∉ replaceGo ruleCR f cs := by
  intro cs
  induction cs with
  | nil => intro f _ h; cases f <;> cases h
  | cons c rest ih =>
    intro f hf h
    cases f with
    | zero => simp at hf
    | succ g =>
      by_cases hc : c = '\r'
      · subst hc
        have he : ruleCR ('\r' :: rest) = some ([], rest) := rfl
        simp only [replaceGo, he, List.nil_append] at h
        exact ih g (by simpa using hf) h
      · simp only [replaceGo, ruleCR_of_ne hc, List.mem_cons] at h
        rcases h with h1 | h2
        · exact hc h1.symm
        · exact ih g (by simpa using hf) h2

/-! ## Adjacent-pattern predicates for the cleanup invariants -/

/-- Some space or tab is immediately followed by a newline. -/
def hasPairSpNl : List Char → Bool
  | a :: b :: rest => (isSpTab a && (b == '\n')) || hasPairSpNl (b :: rest)
  | _ => false

/-- Three consecutive newlines occur. -/
def hasNl3 : List Char → Bool
  | a :: b :: c :: rest =>
    ((a == '\n') && (b == '\n') && (c == '\n')) || hasNl3 (b :: c :: rest)
  | _ => false

theorem hasPairSpNl_cons_true {a : Char} {l : List Char}
    (h : hasPairSpNl l = true) : hasPairSpNl (a :: l) = true := by
  cases l with
  | nil => cases h
  | cons b l' => simp [hasPairSpNl, h]

theorem hasPairSpNl_append_right (t x : List Char) (h : hasPairSpNl x = true) :
    hasPairSpNl (t ++ x) = true := by
  induction t with
  | nil => exact h
  | cons a t' ih => exact hasPairSpNl_cons_true ih

theorem hasPairSpNl_append_left : ∀ (x w : List Char), hasPairSpNl x = true →
    hasPairSpNl (x ++ w) = true
  | a :: b :: rest, w, h => by
    simp only [hasPairSpNl, Bool.or_eq_true] at h
    rcases h with h | h
    · simp only [List.cons_append]
      simp [hasPairSpNl, h]
    · have hr := hasPairSpNl_append_left (b :: rest) w h
      simp only [List.cons_append] at hr ⊢
      exact hasPairSpNl_cons_true hr
  | [a], _, h => by simp [hasPairSpNl] at h
  | [], _, h => by cases h

theorem hasPairSpNl_sfx {x l : List Char} (hsf : x <:+ l)
    (h : hasPairSpNl l = false) : hasPairSpNl x = false := by
  obtain ⟨t, rfl⟩ := hsf
  cases hx : hasPairSpNl x with
  | false => rfl
  | true => rw [hasPairSpNl_append_right t x hx] at h; cases h

theorem hasPairSpNl_pfx {x l : List Char} (hpf : x <+: l)
    (h : hasPairSpNl l = false) : hasPairSpNl x = false := by
  obtain ⟨t, rfl⟩ := hpf
  cases hx : hasPairSpNl x with
  | false => rfl
  | true => rw [hasPairSpNl_append_left x t hx] at h; cases h

theorem hasPairSpNl_tail {a : Char} {l : List Char}
    (h : hasPairSpNl (a :: l) = false) : hasPairSpNl l = false :=
  hasPairSpNl_sfx ⟨[a], rfl⟩ h

theorem hasPairSpNl_cons_of_not_sp {a : Char} {l : List Char}
    (ha : isSpTab a = false) (h : hasPairSpNl l = false) :
    hasPairSpNl (a :: l) = false := by
  cases l with
  | nil => rfl
  | cons b l' => simp [hasPairSpNl, ha, h]

theorem hasPairSpNl_cons_of_head {a : Char} {l : List Char}
    (hh : l.head? ≠ some '\n') (h : hasPairSpNl l = false) :
    hasPairSpNl (a :: l) = false := by
  cases l with
  | nil => rfl
  | cons b l' =>
    have hb : (b == '\n') = false := by
      simp only [List.head?_cons] at hh
      simp only [beq_eq_false_iff_ne]
      intro hbe
      exact hh (by rw [hbe])
    simp [hasPairSpNl, hb, h]

theorem head_ne_nl_of_pair_false {a : Char} {l : List Char}
    (ha : isSpTab a = true) (h : hasPairSpNl (a :: l) = false) :
    l.head? ≠ some '\n' := by
  cases l with
  | nil => simp
  | cons b l' =>
    intro hc
    simp only [List.head?_cons, Option.some.injEq] at hc
    subst hc
    simp [hasPairSpNl, ha] at h

theorem wsnl_pair (z : List Char) : ∀ w : List Char, w ≠ [] →
    (∀ c ∈ w, isSpTab c = true) → hasPairSpNl (w ++ '\n' :: z) = true
  | [], hne, _ => absurd rfl hne
  | [a], _, hall => by simp [hasPairSpNl, hall a (by simp)]
  | a :: b :: w', _, hall => by
    have hr := wsnl_pair z (b :: w') (by simp)
      (fun c hc => hall c (List.mem_cons_of_mem _ hc))
    simp only [List.cons_append] at hr ⊢
    exact hasPairSpNl_cons_true hr

theorem ruleWsNl_none_of_pairless {l : List Char}
    (h : hasPairSpNl l = false) : ruleWsNl l = none := by
  cases he : ruleWsNl l with
  | none => rfl
  | some pr =>
    exfalso
    obtain ⟨r, suf⟩ := pr
    obtain ⟨_, h1, h2⟩ := ruleWsNl_decomp he
    have hs := @List.takeWhile_append_dropWhile _ isSpTab l
    rw [h2] at hs
    have hp := wsnl_pair suf (l.takeWhile isSpTab) h1
      (fun c hc => List.mem_takeWhile_imp hc)
    rw [hs, h] at hp
    cases hp

theorem wsnl_head_of_none {cs : List Char} (h : ruleWsNl cs = none) (f : Nat) :
    (replaceGo ruleWsNl f cs).head? = cs.head? := by
  cases f with
  | zero => rfl
  | succ g =>
    cases cs with
    | nil => rfl
    | cons c rest => simp [replaceGo, h]

theorem ruleWsNl_cons_fail {c : Char} {rest : List Char} (hc : isSpTab c = true)
    (h : ruleWsNl (c :: rest) = none) :
    ruleWsNl rest = none ∧ rest.head? ≠ some '\n' := by
  constructor
  · cases he : ruleWsNl rest with
    | none => rfl
    | some pr =>
      exfalso
      obtain ⟨r, suf⟩ := pr
      obtain ⟨_, h1, h2⟩ := ruleWsNl_decomp he
      have hcond : (c :: rest).takeWhile isSpTab ≠ [] ∧
          ((c :: rest).dropWhile isSpTab).head? = some '\n' :=
        ⟨by simp [List.takeWhile_cons, hc], by simp [List.dropWhile_cons, hc, h2]⟩
      unfold ruleWsNl at h
      rw [if_pos hcond] at h
      cases h
  · intro hhead
    cases rest with
    | nil => cases hhead
    | cons b rest2 =>
      simp only [List.head?_cons, Option.some.injEq] at hhead
      subst hhead
      have hcond : (c :: '\n' :: rest2).takeWhile isSpTab ≠ [] ∧
          ((c :: '\n' :: rest2).dropWhile isSpTab).head? = some '\n' :=
        ⟨by simp [List.takeWhile_cons, hc],
         by simp [List.dropWhile_cons, hc, show isSpTab '\n' = false from rfl]⟩
      unfold ruleWsNl at h
      rw [if_pos hcond] at h
      cases h

/-- Fuel irrelevance for a consuming matcher. -/
theorem replaceGo_congr (step : List Char → Option (List Char × List Char))
    (hstep : ∀ s r suf, step s = some (r, suf) → suf.length < s.length) :
    ∀ (f1 : Nat) (cs : List Char) (f2 : Nat), cs.length ≤ f1 → cs.length ≤ f2 →
      replaceGo step f1 cs = replaceGo step f2 cs := by
  intro f1
  induction f1 with
  | zero =>
    intro cs f2 h1 _
    have : cs = [] := List.length_eq_zero.mp (Nat.le_zero.mp h1)
    subst this
    cases f2 <;> rfl
  | succ g ih =>
    intro cs f2 h1 h2
    cases cs with
    | nil => cases f2 <;> rfl
    | cons c rest =>
      cases f2 with
      | zero => simp at h2
      | succ g2 =>
        cases he : step (c :: rest) with
        | some pr =>
          obtain ⟨r, suf⟩ := pr
          have hl := hstep _ _ _ he
          simp only [replaceGo, he]
          simp only [List.length_cons] at hl h1 h2
          rw [ih suf g2 (by omega) (by omega)]
        | none =>
          simp only [replaceGo, he]
          simp only [List.length_cons] at h1 h2
          rw [ih rest g2 (by omega) (by omega)]

/-- The whitespace-before-newline pass leaves no space/tab-newline
pair. -/
theorem wsnl_out : ∀ (f : Nat) (cs : List Char), cs.length ≤ f →
    hasPairSpNl (replaceGo ruleWsNl f cs) = false := by
  intro f
  induction f with
  | zero =>
    intro cs h1
    have : cs = [] := List.length_eq_zero.mp (Nat.le_zero.mp h1)
    subst this
    rfl
  | succ g ih =>
    intro cs h1
    cases cs with
    | nil => rfl
    | cons c rest =>
      cases he : ruleWsNl (c :: rest) with
      | some pr =>
        obtain ⟨r, suf⟩ := pr
        obtain ⟨hr, _, hlen⟩ := ruleWsNl_parts he
        subst hr
        simp only [replaceGo, he]
        show hasPairSpNl ('\n' :: replaceGo ruleWsNl g suf) = false
        apply hasPairSpNl_cons_of_not_sp (by decide)
        apply ih
        simp only [List.length_cons] at h1 hlen
        omega
      | none =>
        simp only [replaceGo, he]
        simp only [List.length_cons] at h1
        by_cases hsp : isSpTab c = true
        · obtain ⟨hf, hh⟩ := ruleWsNl_cons_fail hsp he
          apply hasPairSpNl_cons_of_head
          · rw [wsnl_head_of_none hf g]
            exact hh
          · exact ih rest (by omega)
        · exact hasPairSpNl_cons_of_not_sp (Bool.not_eq_true _ ▸ hsp) (ih rest (by omega))

theorem hasNl3_cons_true {a : Char} {l : List Char}
    (h : hasNl3 l = true) : hasNl3 (a :: l) = true := by
  cases l with
  | nil => cases h
  | cons b l' =>
    cases l' with
    | nil => cases h
    | cons c l'' => simp [hasNl3, h]

theorem hasNl3_append_right (t x : List Char) (h : hasNl3 x = true) :
    hasNl3 (t ++ x) = true := by
  induction t with
  | nil => exact h
  | cons a t' ih => exact hasNl3_cons_true ih

theorem hasNl3_append_left : ∀ (x w : List Char), hasNl3 x = true →
    hasNl3 (x ++ w) = true
  | a :: b :: c :: rest, w, h => by
    simp only [hasNl3, Bool.or_eq_true] at h
    rcases h with h | h
    · simp only [List.cons_append]
      simp [hasNl3, h]
    · have hr := hasNl3_append_left (b :: c :: rest) w h
      simp only [List.cons_append] at hr ⊢
      exact hasNl3_cons_true hr
  | [a, b], _, h => by simp [hasNl3] at h
  | [a], _, h => by simp [hasNl3] at h
  | [], _, h => by cases h

theorem hasNl3_sfx {x l : List Char} (hsf : x <:+ l)
    (h : hasNl3 l = false) : hasNl3 x = false := by
  obtain ⟨t, rfl⟩ := hsf
  cases hx : hasNl3 x with
  | false => rfl
  | true => rw [hasNl3_append_right t x hx] at h; cases h

theorem hasNl3_pfx {x l : List Char} (hpf : x <+: l)
    (h : hasNl3 l = false) : hasNl3 x = false := by
  obtain ⟨t, rfl⟩ := hpf
  cases hx : hasNl3 x with
  | false => rfl
  | true => rw [hasNl3_append_left x t hx] at h; cases h

theorem hasNl3_tail {a : Char} {l : List Char}
    (h : hasNl3 (a :: l) = false) : hasNl3 l = false :=
  hasNl3_sfx ⟨[a], rfl⟩ h

theorem hasNl3_cons_of_ne {a : Char} {l : List Char} (ha : a ≠ '\n')
    (h : hasNl3 l = false) : hasNl3 (a :: l) = false := by
  cases l with
  | nil => rfl
  | cons b l' =>
    cases l' with
    | nil => rfl
    | cons c l'' =>
      have : (a == '\n') = false := by simp [ha]
      simp [hasNl3, this, h]

theorem hasNl3_cons_of_head {a : Char} {l : List Char}
    (hh : l.head? ≠ some '\n') (h : hasNl3 l = false) :
    hasNl3 (a :: l) = false := by
  cases l with
  | nil => rfl
  | cons b l' =>
    have hb : (b == '\n') = false := by
      simp only [List.head?_cons] at hh
      simp only [beq_eq_false_iff_ne]
      intro hbe
      exact hh (by rw [hbe])
    cases l' with
    | nil => rfl
    | cons c l'' => simp [hasNl3, hb, h]

theorem two_nl_prefix {R : List Char} (hh : R.head? ≠ some '\n')
    (h : hasNl3 R = false) : hasNl3 ('\n' :: '\n' :: R) = false := by
  cases R with
  | nil => rfl
  | cons r0 R' =>
    have hr0 : (r0 == '\n') = false := by
      simp only [List.head?_cons] at hh
      simp only [beq_eq_false_iff_ne]
      intro hbe
      exact hh (by rw [hbe])
    have h2 : hasNl3 ('\n' :: r0 :: R') = false :=
      hasNl3_cons_of_head (by simp [beq_eq_false_iff_ne.mp hr0]) h
    simp [hasNl3, hr0, h2]

theorem takeWhile_succ_head {p : Char → Bool} {l : List Char} {k : Nat}
    (h : k + 1 ≤ (l.takeWhile p).length) :
    ∃ a r, l = a :: r ∧ p a = true ∧ k ≤ (r.takeWhile p).length := by
  cases l with
  | nil => simp at h
  | cons a r =>
    rw [List.takeWhile_cons] at h
    by_cases ha : p a = true
    · rw [if_pos ha] at h
      simp only [List.length_cons] at h
      exact ⟨a, r, rfl, ha, by omega⟩
    · rw [if_neg ha] at h
      simp at h

theorem three_nl_of_takeWhile {l : List Char}
    (h : 3 ≤ (l.takeWhile (fun c => c == '\n')).length) :
    ∃ r, l = '\n' :: '\n' :: '\n' :: r := by
  obtain ⟨a, r1, rfl, ha, h1⟩ := @takeWhile_succ_head _ _ 2 h
  obtain ⟨b, r2, rfl, hb, h2⟩ := @takeWhile_succ_head _ _ 1 h1
  obtain ⟨c, r3, rfl, hc, _⟩ := @takeWhile_succ_head _ _ 0 h2
  rw [show a = '\n' from beq_iff_eq.mp ha, show b = '\n' from beq_iff_eq.mp hb,
    show c = '\n' from beq_iff_eq.mp hc]
  exact ⟨r3, rfl⟩

theorem ruleNl3_none_of_no3 {l : List Char} (h : hasNl3 l = false) :
    ruleNl3 l = none := by
  cases he : ruleNl3 l with
  | none => rfl
  | some pr =>
    exfalso
    obtain ⟨r, suf⟩ := pr
    obtain ⟨_, h1, _⟩ := ruleNl3_decomp he
    obtain ⟨z, rfl⟩ := three_nl_of_takeWhile h1
    simp [hasNl3] at h

theorem head?_dropWhile_ne {p : Char → Bool} {l : List Char} {a : Char}
    {t : List Char} (hd : l.dropWhile p = a :: t) : p a = false := by
  have hne : l.dropWhile p ≠ [] := by rw [hd]; simp
  have hmain := List.head_dropWhile_not p l hne
  have h2 : ∀ (m : List Char) (hm : m ≠ []), m = a :: t →
      p (m.head hm) = false → p a = false := by
    intro m hm hme hp
    subst hme
    simpa using hp
  exact h2 _ hne hd hmain

theorem nl3_head (f : Nat) (cs : List Char) :
    (replaceGo ruleNl3 f cs).head? = cs.head? := by
  cases f with
  | zero => rfl
  | succ g =>
    cases cs with
    | nil => rfl
    | cons c rest =>
      cases he : ruleNl3 (c :: rest) with
      | some pr =>
        obtain ⟨r, suf⟩ := pr
        obtain ⟨hr, h1, _⟩ := ruleNl3_decomp he
        obtain ⟨z, hz⟩ := three_nl_of_takeWhile h1
        subst hr
        simp only [replaceGo, he]
        injection hz with hc _
        rw [hc]
        rfl
      | none => simp [replaceGo, he]

/-- The newline-collapse pass leaves no run of three newlines. -/
theorem nl3_out : ∀ (f : Nat) (cs : List Char), cs.length ≤ f →
    hasNl3 (replaceGo ruleNl3 f cs) = false := by
  intro f
  induction f with
  | zero =>
    intro cs h1
    have : cs = [] := List.length_eq_zero.mp (Nat.le_zero.mp h1)
    subst this
    rfl
  | succ g ih =>
    intro cs h1
    cases cs with
    | nil => rfl
    | cons c rest =>
      simp only [List.length_cons] at h1
      cases he : ruleNl3 (c :: rest) with
      | some pr =>
        obtain ⟨r, suf⟩ := pr
        obtain ⟨hr, _, hsuf⟩ := ruleNl3_decomp he
        subst hr
        have hlen : suf.length < rest.length + 1 := (ruleNl3_parts he).2.2
        simp only [replaceGo, he]
        show hasNl3 ('\n' :: '\n' :: replaceGo ruleNl3 g suf) = false
        apply two_nl_prefix
        · rw [nl3_head]
          cases hsd : suf with
          | nil => simp
          | cons a t =>
            rw [hsuf] at hsd
            have := head?_dropWhile_ne hsd
            rw [hsd] at hsuf
            simp only [List.head?_cons, ne_eq, Option.some.injEq]
            intro hcon
            rw [hcon] at this
            simp at this
        · exact ih suf (by omega)
      | none =>
        simp only [replaceGo, he]
        by_cases hc : c = '\n'
        · subst hc
          have hfail : ¬ 3 ≤ (('\n' :: rest).takeWhile (fun c => c == '\n')).length := by
            intro hcon
            unfold ruleNl3 at he
            rw [if_pos hcon] at he
            cases he
          rw [List.takeWhile_cons] at hfail
          simp only [show (('\n' : Char) == '\n') = true from rfl, if_true,
            List.length_cons] at hfail
          cases hhr : rest.head? with
          | none =>
            apply hasNl3_cons_of_head
            · rw [nl3_head, hhr]
              simp
            · exact ih rest (by omega)
          | some b =>
            by_cases hb : b = '\n'
            · subst hb
              cases rest with
              | nil => cases hhr
              | cons b0 rest2 =>
                simp only [List.head?_cons, Option.some.injEq] at hhr
                subst hhr
                cases g with
                | zero => simp only [List.length_cons] at h1; omega
                | succ g' =>
                  have htw2 : (rest2.takeWhile (fun c => c == '\n')).length = 0 := by
                    rw [List.takeWhile_cons] at hfail
                    simp only [show (('\n' : Char) == '\n') = true from rfl, if_true,
                      List.length_cons] at hfail
                    omega
                  have hh2 : rest2.head? ≠ some '\n' := by
                    cases hr2 : rest2 with
                    | nil => simp
                    | cons x t =>
                      rw [hr2, List.takeWhile_cons] at htw2
                      by_cases hx : (x == '\n') = true
                      · rw [if_pos hx] at htw2
                        simp at htw2
                      · simp only [List.head?_cons, ne_eq, Option.some.injEq]
                        intro hcon
                        rw [hcon] at hx
                        simp at hx
                  have hlen2 : (('\n' :: rest2).takeWhile (fun c => c == '\n')).length =
                      (rest2.takeWhile (fun c => c == '\n')).length + 1 := by
                    rw [List.takeWhile_cons]
                    simp
                  have hnone2 : ruleNl3 ('\n' :: rest2) = none := by
                    unfold ruleNl3
                    rw [if_neg (by omega :
                      ¬ 3 ≤ (('\n' :: rest2).takeWhile (fun c => c == '\n')).length)]
                  have hunf : replaceGo ruleNl3 (g' + 1) ('\n' :: rest2) =
                      '\n' :: replaceGo ruleNl3 g' rest2 := by
                    simp only [replaceGo, hnone2]
                  rw [hunf]
                  apply two_nl_prefix
                  · rw [nl3_head]
                    exact hh2
                  · simp only [List.length_cons] at h1
                    rw [replaceGo_congr ruleNl3
                      (fun s r suf hs => (ruleNl3_parts hs).2.2) g' rest2 (g' + 1)
                      (by omega) (by omega)]
                    exact ih rest2 (by omega)
            · apply hasNl3_cons_of_head
              · rw [nl3_head, hhr]
                simp only [ne_eq, Option.some.injEq]
                exact hb
              · exact ih rest (by omega)
        · exact hasNl3_cons_of_ne hc (ih rest (by omega))

theorem hasNl3_drop {l : List Char} (h : hasNl3 l = false) (n : Nat) :
    hasNl3 (l.drop n) = false :=
  hasNl3_sfx ⟨l.take n, List.take_append_drop n l⟩ h

theorem hasPairSpNl_drop {l : List Char} (h : hasPairSpNl l = false) (n : Nat) :
    hasPairSpNl (l.drop n) = false :=
  hasPairSpNl_sfx ⟨l.take n, List.take_append_drop n l⟩ h

/-- The newline-collapse pass preserves the absence of space/tab-newline
pairs. -/
theorem nl3_preserves_pair : ∀ (f : Nat) (cs : List Char), cs.length ≤ f →
    hasPairSpNl cs = false → hasPairSpNl (replaceGo ruleNl3 f cs) = false := by
  intro f
  induction f with
  | zero =>
    intro cs h1 _
    have : cs = [] := List.length_eq_zero.mp (Nat.le_zero.mp h1)
    subst this
    rfl
  | succ g ih =>
    intro cs h1 h
    cases cs with
    | nil => rfl
    | cons c rest =>
      simp only [List.length_cons] at h1
      cases he : ruleNl3 (c :: rest) with
      | some pr =>
        obtain ⟨r, suf⟩ := pr
        obtain ⟨hr, _, hsuf⟩ := ruleNl3_decomp he
        subst hr
        have hlen : suf.length < rest.length + 1 := (ruleNl3_parts he).2.2
        have hsufpair : hasPairSpNl suf = false := by
          rw [hsuf]
          exact hasPairSpNl_sfx (List.dropWhile_suffix _) h
        simp only [replaceGo, he]
        show hasPairSpNl ('\n' :: '\n' :: replaceGo ruleNl3 g suf) = false
        apply hasPairSpNl_cons_of_not_sp (by decide)
        apply hasPairSpNl_cons_of_not_sp (by decide)
        exact ih suf (by omega) hsufpair
      | none =>
        simp only [replaceGo, he]
        by_cases hsp : isSpTab c = true
        · apply hasPairSpNl_cons_of_head
          · rw [nl3_head]
            exact head_ne_nl_of_pair_false hsp h
          · exact ih rest (by omega) (hasPairSpNl_tail h)
        · exact hasPairSpNl_cons_of_not_sp (Bool.not_eq_true _ ▸ hsp)
            (ih rest (by omega) (hasPairSpNl_tail h))

/-! ## Trim lemmas -/

theorem jsTrimL_sub {cs : List Char} : jsTrimL cs ⊆ cs := by
  intro x hx
  unfold jsTrimL at hx
  exact (List.dropWhile_suffix jsWs).subset
    (( List.rdropWhile_prefix jsWs (cs.dropWhile jsWs)).subset hx)

theorem jsTrimL_pair {cs : List Char} (h : hasPairSpNl cs = false) :
    hasPairSpNl (jsTrimL cs) = false :=
  hasPairSpNl_pfx ( List.rdropWhile_prefix _ _)
    (hasPairSpNl_sfx (List.dropWhile_suffix _) h)

theorem jsTrimL_nl3 {cs : List Char} (h : hasNl3 cs = false) :
    hasNl3 (jsTrimL cs) = false :=
  hasNl3_pfx ( List.rdropWhile_prefix _ _)
    (hasNl3_sfx (List.dropWhile_suffix _) h)

theorem jsTrimL_idem (l : List Char) : jsTrimL (jsTrimL l) = jsTrimL l := by
  unfold jsTrimL
  have hdt : (List.rdropWhile jsWs (l.dropWhile jsWs)).dropWhile jsWs =
      List.rdropWhile jsWs (l.dropWhile jsWs) := by
    cases ht : List.rdropWhile jsWs (l.dropWhile jsWs) with
    | nil => rfl
    | cons a t' =>
      obtain ⟨w, hw⟩ := List.rdropWhile_prefix jsWs (l.dropWhile jsWs)
      rw [ht] at hw
      have ha : jsWs a = false := @head?_dropWhile_ne jsWs l _ _ (by
        rw [← hw]
        rfl)
      rw [List.dropWhile_cons, if_neg (by simp [ha])]
  rw [hdt, List.rdropWhile_idempotent]

theorem htmlToPlain_eq_of_ne {t : String} (ht : ¬ t = "") :
    htmlToPlain t = ⟨cleanupL (decodeHtmlEntitiesL (stripTagsL t.data))⟩ := by
  unfold htmlToPlain
  rw [if_neg ht]

/-- Invariants of every `htmlToPlain` output: no carriage return, no
space/tab immediately before a newline, no run of three newlines, and
already trimmed. -/
theorem htmlToPlain_props (s : String) :
    '\r' ∉ (htmlToPlain s).data ∧
    hasPairSpNl (htmlToPlain s).data = false ∧
    hasNl3 (htmlToPlain s).data = false ∧
    jsTrimL (htmlToPlain s).data = (htmlToPlain s).data := by
  unfold htmlToPlain
  by_cases he : s = ""
  · rw [if_pos he]
    exact ⟨by simp, rfl, rfl, rfl⟩
  · rw [if_neg he]
    unfold cleanupL
    have hwsnl_step : ∀ (s' r suf : List Char), ruleWsNl s' = some (r, suf) →
        (∀ c ∈ r, c ≠ '\r') ∧ suf ⊆ s' := by
      intro s' r suf hs
      obtain ⟨hr, hsub, _⟩ := ruleWsNl_parts hs
      refine ⟨?_, hsub⟩
      rw [hr]
      intro c hc
      simp at hc
      rw [hc]
      decide
    have hnl3_step : ∀ (s' r suf : List Char), ruleNl3 s' = some (r, suf) →
        (∀ c ∈ r, c ≠ '\r') ∧ suf ⊆ s' := by
      intro s' r suf hs
      obtain ⟨hr, hsub, _⟩ := ruleNl3_parts hs
      refine ⟨?_, hsub⟩
      rw [hr]
      intro c hc
      simp at hc
      rw [hc]
      decide
    have hA : '\r' ∉ applyRule ruleCR (decodeHtmlEntitiesL (stripTagsL s.data)) :=
      cr_out_no_cr _ _ (Nat.le_refl _)
    have hB : '\r' ∉
        applyRule ruleWsNl (applyRule ruleCR (decodeHtmlEntitiesL (stripTagsL s.data))) := by
      intro hx
      exact replaceGo_mem ruleWsNl (fun c => c ≠ '\r') hwsnl_step _ _
        (fun c hc hcr => hA (hcr ▸ hc)) '\r' hx rfl
    have hC : '\r' ∉ applyRule ruleNl3 (applyRule ruleWsNl
        (applyRule ruleCR (decodeHtmlEntitiesL (stripTagsL s.data)))) := by
      intro hx
      exact replaceGo_mem ruleNl3 (fun c => c ≠ '\r') hnl3_step _ _
        (fun c hc hcr => hB (hcr ▸ hc)) '\r' hx rfl
    have hBpair : hasPairSpNl (applyRule ruleWsNl
        (applyRule ruleCR (decodeHtmlEntitiesL (stripTagsL s.data)))) = false :=
      wsnl_out _ _ (Nat.le_refl _)
    have hCpair : hasPairSpNl (applyRule ruleNl3 (applyRule ruleWsNl
        (applyRule ruleCR (decodeHtmlEntitiesL (stripTagsL s.data))))) = false :=
      nl3_preserves_pair _ _ (Nat.le_refl _) hBpair
    have hC3 : hasNl3 (applyRule ruleNl3 (applyRule ruleWsNl
        (applyRule ruleCR (decodeHtmlEntitiesL (stripTagsL s.data))))) = false :=
      nl3_out _ _ (Nat.le_refl _)
    revert hC hCpair hC3
    generalize applyRule ruleNl3 (applyRule ruleWsNl (applyRule ruleCR
      (decodeHtmlEntitiesL (stripTagsL s.data)))) = C
    intro hC hCpair hC3
    exact ⟨fun hx => hC (jsTrimL_sub hx), jsTrimL_pair hCpair, jsTrimL_nl3 hC3,
      jsTrimL_idem _⟩

/-- C6 counterexample: `htmlToPlain` is not idempotent — on the output
for the double-encoded input `"&amp;nbsp;"` a second application decodes
the remaining entity and trims the resulting space away. -/
theorem htmlToPlain_not_idempotent :
    htmlToPlain (htmlToPlain "&amp;nbsp;") ≠ htmlToPlain "&amp;nbsp;" := by
  have e1 : htmlToPlain "&amp;nbsp;" = "&nbsp;" := by decide
  rw [e1]
  have e2 : htmlToPlain "&nbsp;" = "" := by decide
  rw [e2]
  decide

/-- C6 amended: `htmlToPlain` is idempotent on every output that
contains neither `'<'` nor `'&'`; outputs containing them (possible only
for double-encoded input) may change under a second application. -/
theorem htmlToPlain_idem_spec (s : String)
    (h1 : '<' ∉ (htmlToPlain s).data) (h2 : '&' ∉ (htmlToPlain s).data) :
    htmlToPlain (htmlToPlain s) = htmlToPlain s := by
  obtain ⟨hcr, hpair, h3, htrim⟩ := htmlToPlain_props s
  by_cases he : htmlToPlain s = ""
  · rw [he]
    decide
  · rw [htmlToPlain_eq_of_ne he]
    have hst : stripTagsL (htmlToPlain s).data = (htmlToPlain s).data := by
      unfold stripTagsL
      rw [applyRule_id_of_head ruleLiLi '<' (fun _ _ h => ruleLiLi_head h) _ h1,
        applyRule_id_of_head ruleLiOpen '<' (fun _ _ h => ruleLiOpen_head h) _ h1,
        applyRule_id_of_head ruleLiClose '<' (fun _ _ h => ruleLiClose_head h) _ h1,
        applyRule_id_of_head ruleBr '<' (fun _ _ h => ruleBr_head h) _ h1,
        applyRule_id_of_head rulePP '<' (fun _ _ h => rulePP_head h) _ h1,
        applyRule_id_of_head rulePOpen '<' (fun _ _ h => rulePOpen_head h) _ h1,
        applyRule_id_of_head rulePClose '<' (fun _ _ h => rulePClose_head h) _ h1,
        applyRule_id_of_head ruleTag '<' (fun _ _ h => ruleTag_head h) _ h1]
    have hdec : decodeHtmlEntitiesL (htmlToPlain s).data = (htmlToPlain s).data := by
      unfold decodeHtmlEntitiesL
      rw [applyRule_id_of_head (ruleLit "&nbsp;".data " ".data) '&'
          (fun _ _ h => @ruleLit_head '&' ("nbsp;".data) _ _ _ h) _ h2,
        applyRule_id_of_head (ruleLit "&amp;".data "&".data) '&'
          (fun _ _ h => @ruleLit_head '&' ("amp;".data) _ _ _ h) _ h2,
        applyRule_id_of_head (ruleLit "&lt;".data "<".data) '&'
          (fun _ _ h => @ruleLit_head '&' ("lt;".data) _ _ _ h) _ h2,
        applyRule_id_of_head (ruleLit "&gt;".data ">".data) '&'
          (fun _ _ h => @ruleLit_head '&' ("gt;".data) _ _ _ h) _ h2,
        applyRule_id_of_head (ruleLit "&quot;".data "\"".data) '&'
          (fun _ _ h => @ruleLit_head '&' ("quot;".data) _ _ _ h) _ h2,
        applyRule_id_of_head (ruleLit "&#39;".data "'".data) '&'
          (fun _ _ h => @ruleLit_head '&' ("#39;".data) _ _ _ h) _ h2,
        applyRule_id_of_head ruleNum '&' (fun _ _ h => ruleNum_head h) _ h2]
    have hclean : cleanupL (htmlToPlain s).data = (htmlToPlain s).data := by
      unfold cleanupL
      rw [applyRule_id_of_head ruleCR '\r' (fun _ _ h => ruleCR_head h) _ hcr]
      rw [show applyRule ruleWsNl (htmlToPlain s).data = (htmlToPlain s).data from
        replaceGo_id ruleWsNl _ _ (Nat.le_refl _)
          (fun n => ruleWsNl_none_of_pairless (hasPairSpNl_drop hpair n))]
      rw [show applyRule ruleNl3 (htmlToPlain s).data = (htmlToPlain s).data from
        replaceGo_id ruleNl3 _ _ (Nat.le_refl _)
          (fun n => ruleNl3_none_of_no3 (hasNl3_drop h3 n))]
      exact htrim
    rw [hst, hdec, hclean]

/-- Witness for C6's amended idempotence at a concrete input whose output
is plain. -/
theorem htmlToPlain_idem_spec_witness :
    htmlToPlain (htmlToPlain "<p>Hello</p>") = htmlToPlain "<p>Hello</p>" :=
  htmlToPlain_idem_spec "<p>Hello</p>" (by decide) (by decide)
